import Mathlib

/-!
Verification of the Course-OTIK archiver sources against its specification.

The definitions below are shallow embeddings of the Python sources:
  src/src/utils.py            (bit and byte conversion helpers)
  src/src/Huffman.py          (canonical Huffman codec)
  src/src/Hamming.py          (extended systematic Hamming codec)
  src/src/Archive_Formats.py  (archive header and file-table records)
Bytes are modelled as natural numbers below 256, byte strings as lists,
Python dictionaries as association lists in insertion order, and raising
an exception as returning none.
-/

set_option maxRecDepth 100000

/-! ## utils.py -/

/-- Embeds utils.byte_to_bits: appends the low `length` binary digits of
`byte` to the buffer `bits`, most significant digit first. -/
def byteToBits (bits : List Nat) (byte length : Nat) : List Nat :=
  bits ++ (List.range length).map (fun i => (byte >>> (length - 1 - i)) &&& 1)

/-- The digits appended by a single byteToBits call (the buffer-free part). -/
def natBits (byte length : Nat) : List Nat :=
  (List.range length).map (fun i => (byte >>> (length - 1 - i)) &&& 1)

theorem byteToBits_eq_append (bits : List Nat) (b l : Nat) :
    byteToBits bits b l = bits ++ natBits b l := rfl

/-- Embeds utils.bytes_to_bits: concatenates the 8 MSB-first digits of
every byte. -/
def bytesToBits (b : List Nat) : List Nat :=
  b.foldl (fun bits byte => byteToBits bits byte 8) []

/-- One store of the bits_to_bytes loop body: `out[i // 8] |= 1 << (7 - i % 8)`
when the bit is truthy. -/
def bitStore (o : List Nat) (ib : Nat × Nat) : List Nat :=
  if ib.2 ≠ 0 then o.set (ib.1 / 8) (o.getD (ib.1 / 8) 0 ||| (1 <<< (7 - ib.1 % 8))) else o

/-- Embeds utils.bits_to_bytes: allocates `(len + 7) / 8` zero bytes and ors
each truthy bit into its byte slot, MSB first inside every byte. -/
def bitsToBytes (bits : List Nat) : List Nat :=
  bits.enum.foldl bitStore (List.replicate ((bits.length + 7) / 8) 0)

/-- Folding the bits_to_bytes store over an arbitrary indexed bit list. -/
def writeBitsFrom (out : List Nat) (pairs : List (Nat × Nat)) : List Nat :=
  pairs.foldl bitStore out

theorem bitsToBytes_def (bits : List Nat) :
    bitsToBytes bits = writeBitsFrom (List.replicate ((bits.length + 7) / 8) 0) bits.enum := rfl

theorem writeBitsFrom_cons (out : List Nat) (p : Nat × Nat) (ps : List (Nat × Nat)) :
    writeBitsFrom out (p :: ps) = writeBitsFrom (bitStore out p) ps := rfl

/-- Accumulates the or-mask a bit chunk contributes to one output byte,
starting at in-byte offset m. -/
def chunkOr (x m : Nat) : List Nat → Nat
  | [] => x
  | b :: bs => chunkOr (if b ≠ 0 then x ||| (1 <<< (7 - m)) else x) (m + 1) bs

theorem writeBitsFrom_append (out : List Nat) (p q : List (Nat × Nat)) :
    writeBitsFrom out (p ++ q) = writeBitsFrom (writeBitsFrom out p) q :=
  List.foldl_append ..

theorem writeBitsFrom_skip (l : List Nat) :
    ∀ (out : List Nat) (x k : Nat),
      writeBitsFrom (x :: out) (l.enumFrom (8 + k)) = x :: writeBitsFrom out (l.enumFrom k) := by
  induction l with
  | nil => intro out x k; rfl
  | cons b bs ih =>
      intro out x k
      rw [List.enumFrom_cons, List.enumFrom_cons, writeBitsFrom_cons, writeBitsFrom_cons]
      have hstep : bitStore (x :: out) (8 + k, b) = x :: bitStore out (k, b) := by
        simp only [bitStore]
        by_cases hb : b ≠ 0
        · rw [if_pos hb, if_pos hb]
          have h1 : (8 + k) / 8 = k / 8 + 1 := by omega
          have h2 : (8 + k) % 8 = k % 8 := by omega
          rw [h1, h2, List.getD_cons_succ, List.set_cons_succ]
        · rw [if_neg hb, if_neg hb]
      rw [hstep]
      have h3 : 8 + k + 1 = 8 + (k + 1) := by omega
      rw [h3, ih]

theorem writeBitsFrom_chunk (c : List Nat) :
    ∀ (out : List Nat) (x m : Nat), m + c.length ≤ 8 →
      writeBitsFrom (x :: out) (c.enumFrom m) = chunkOr x m c :: out := by
  induction c with
  | nil => intro out x m _; rfl
  | cons b bs ih =>
      intro out x m h
      have hm : m < 8 := by simp only [List.length_cons] at h; omega
      rw [List.enumFrom_cons, writeBitsFrom_cons]
      have hstep : bitStore (x :: out) (m, b) =
          (if b ≠ 0 then x ||| (1 <<< (7 - m)) else x) :: out := by
        simp only [bitStore]
        by_cases hb : b ≠ 0
        · rw [if_pos hb, if_pos hb]
          have h1 : m / 8 = 0 := by omega
          have h2 : m % 8 = m := by omega
          rw [h1, h2, List.getD_cons_zero, List.set_cons_zero]
        · rw [if_neg hb, if_neg hb]
      rw [hstep, chunkOr]
      exact ih out _ (m + 1) (by simp only [List.length_cons] at h; omega)

theorem bytesToBits_cons (B : Nat) (bs : List Nat) :
    bytesToBits (B :: bs) = natBits B 8 ++ bytesToBits bs := by
  have key : ∀ (l acc : List Nat),
      l.foldl (fun bits byte => byteToBits bits byte 8) acc =
        acc ++ l.foldl (fun bits byte => byteToBits bits byte 8) [] := by
    intro l
    induction l with
    | nil => intro acc; simp
    | cons y ys ih =>
        intro acc
        simp only [List.foldl_cons]
        rw [ih (byteToBits acc y 8), ih (byteToBits [] y 8)]
        rw [byteToBits_eq_append, byteToBits_eq_append]
        simp
  simp only [bytesToBits, List.foldl_cons]
  rw [key bs (byteToBits [] B 8), byteToBits_eq_append]
  simp [bytesToBits]

theorem natBits_length (b l : Nat) : (natBits b l).length = l := by
  simp [natBits]

theorem bytesToBits_length (b : List Nat) : (bytesToBits b).length = 8 * b.length := by
  induction b with
  | nil => rfl
  | cons x xs ih =>
      rw [bytesToBits_cons]
      simp only [List.length_append, natBits_length, ih, List.length_cons]
      omega

theorem bitsToBytes_chunk (c rest : List Nat) (hc : c.length = 8) :
    bitsToBytes (c ++ rest) = chunkOr 0 0 c :: bitsToBytes rest := by
  have hlen : ((c ++ rest).length + 7) / 8 = 1 + (rest.length + 7) / 8 := by
    simp only [List.length_append, hc]
    omega
  rw [bitsToBytes_def, hlen]
  have hrep : List.replicate (1 + (rest.length + 7) / 8) (0 : Nat) =
      0 :: List.replicate ((rest.length + 7) / 8) (0 : Nat) := by
    rw [Nat.add_comm]
    rfl
  rw [hrep]
  have henum : (c ++ rest).enum = c.enumFrom 0 ++ rest.enumFrom 8 := by
    rw [List.enum_append, hc]
    rfl
  rw [henum, writeBitsFrom_append]
  rw [writeBitsFrom_chunk c _ 0 0 (by omega)]
  have hskip := writeBitsFrom_skip rest (List.replicate ((rest.length + 7) / 8) 0) (chunkOr 0 0 c) 0
  simpa [List.enum, bitsToBytes_def] using hskip

theorem chunkOr_natBits (B : Nat) (hB : B < 256) : chunkOr 0 0 (natBits B 8) = B := by
  revert B
  decide

theorem natBits_chunkOr_len8 (c : List Nat) (hc : c.length = 8) (hb : ∀ b ∈ c, b < 2) :
    natBits (chunkOr 0 0 c) 8 = c := by
  cases c with
  | nil => simp at hc
  | cons b0 c =>
  cases c with
  | nil => simp at hc
  | cons b1 c =>
  cases c with
  | nil => simp at hc
  | cons b2 c =>
  cases c with
  | nil => simp at hc
  | cons b3 c =>
  cases c with
  | nil => simp at hc
  | cons b4 c =>
  cases c with
  | nil => simp at hc
  | cons b5 c =>
  cases c with
  | nil => simp at hc
  | cons b6 c =>
  cases c with
  | nil => simp at hc
  | cons b7 c =>
  cases c with
  | cons b8 c => simp at hc
  | nil =>
  have h0 : b0 = 0 ∨ b0 = 1 := by have := hb b0 (by simp); omega
  have h1 : b1 = 0 ∨ b1 = 1 := by have := hb b1 (by simp); omega
  have h2 : b2 = 0 ∨ b2 = 1 := by have := hb b2 (by simp); omega
  have h3 : b3 = 0 ∨ b3 = 1 := by have := hb b3 (by simp); omega
  have h4 : b4 = 0 ∨ b4 = 1 := by have := hb b4 (by simp); omega
  have h5 : b5 = 0 ∨ b5 = 1 := by have := hb b5 (by simp); omega
  have h6 : b6 = 0 ∨ b6 = 1 := by have := hb b6 (by simp); omega
  have h7 : b7 = 0 ∨ b7 = 1 := by have := hb b7 (by simp); omega
  rcases h0 with rfl | rfl <;> rcases h1 with rfl | rfl <;> rcases h2 with rfl | rfl <;>
    rcases h3 with rfl | rfl <;> rcases h4 with rfl | rfl <;> rcases h5 with rfl | rfl <;>
    rcases h6 with rfl | rfl <;> rcases h7 with rfl | rfl <;> rfl

theorem roundtrip_bytes (b : List Nat) (hb : ∀ x ∈ b, x < 256) :
    bitsToBytes (bytesToBits b) = b := by
  induction b with
  | nil => rfl
  | cons B bs ih =>
      rw [bytesToBits_cons, bitsToBytes_chunk _ _ (natBits_length B 8)]
      rw [chunkOr_natBits B (hb B (by simp))]
      rw [ih (fun x hx => hb x (by simp [hx]))]

theorem roundtrip_bits_aux (n : Nat) :
    ∀ bits : List Nat, bits.length = 8 * n → (∀ x ∈ bits, x < 2) →
      bytesToBits (bitsToBytes bits) = bits := by
  induction n with
  | zero =>
      intro bits hlen _
      have : bits = [] := List.length_eq_zero.mp (by omega)
      subst this
      rfl
  | succ m ih =>
      intro bits hlen hb
      have hlen8 : (bits.take 8).length = 8 := by
        simp only [List.length_take]
        omega
      have hdecomp : bits.take 8 ++ bits.drop 8 = bits := List.take_append_drop 8 bits
      rw [← hdecomp, bitsToBytes_chunk _ _ hlen8, bytesToBits_cons]
      rw [natBits_chunkOr_len8 _ hlen8 (fun x hx => hb x (List.mem_of_mem_take hx))]
      have hdropLen : (bits.drop 8).length = 8 * m := by
        simp only [List.length_drop]
        omega
      rw [ih _ hdropLen (fun x hx => hb x (List.mem_of_mem_drop hx))]

/-- C10: for byte strings, bits_to_bytes inverts bytes_to_bits; for 0/1 bit
lists whose length is a multiple of 8, bytes_to_bits inverts bits_to_bytes,
with bits MSB-first within each byte. -/
theorem c10_bit_byte_roundtrip (b bits : List Nat)
    (hb : ∀ x ∈ b, x < 256) (hlen : bits.length % 8 = 0) (hbit : ∀ x ∈ bits, x < 2) :
    bitsToBytes (bytesToBits b) = b ∧ bytesToBits (bitsToBytes bits) = bits := by
  constructor
  · exact roundtrip_bytes b hb
  · exact roundtrip_bits_aux (bits.length / 8) bits (by omega) hbit

/-- Witness for C10 at a concrete byte string and bit list. -/
theorem c10_bit_byte_roundtrip_witness :
    bitsToBytes (bytesToBits [0xAC, 7]) = [0xAC, 7] ∧
      bytesToBits (bitsToBytes [1, 0, 1, 0, 1, 1, 0, 0]) = [1, 0, 1, 0, 1, 1, 0, 0] :=
  c10_bit_byte_roundtrip [0xAC, 7] [1, 0, 1, 0, 1, 1, 0, 0]
    (by decide) (by decide) (by decide)

/-! ## Hamming.py -/

/-- Hamming.__init__ block length: n = 1 << r. -/
def hammingN (r : Nat) : Nat := 1 <<< r

/-- Hamming.__init__ payload length: k = n - r - 1. -/
def hammingK (r : Nat) : Nat := hammingN r - r - 1

/-- Hamming._build_parity_matrix: r rows of [transposed P | identity | 1];
the data column for 1-based position pos is the binary digits of pos. -/
def hammingH (r : Nat) : List (List Nat) :=
  (List.range r).map (fun parityRow =>
    ((List.range (hammingK r)).map (fun i => ((i + 1) >>> parityRow) &&& 1)) ++
      ((List.range r).map (fun i => if i = parityRow then 1 else 0)) ++ [1])

/-- XOR accumulation `s ^= a[i] & b[i]` over paired entries. -/
def xorDot (a b : List Nat) : Nat :=
  (List.zip a b).foldl (fun s p => s ^^^ (p.1 &&& p.2)) 0

/-- Hamming._calc_parity_bits: the r parity bits (one XOR sum per matrix row
over the k data bits) and the global parity bit. -/
def calcParityBits (r : Nat) (dataBits : List Nat) : List Nat × Nat :=
  let parityBits := (hammingH r).map (fun row => xorDot dataBits row)
  (parityBits, (dataBits.sum ^^^ parityBits.sum) &&& 1)

/-- Hamming._encode_block body: data bits, then parity bits, then the global
parity bit. -/
def encodeBlockCore (r : Nat) (dataBits : List Nat) : List Nat :=
  dataBits ++ (calcParityBits r dataBits).1 ++ [(calcParityBits r dataBits).2]

/-- Hamming._encode_block: raises (none) unless the block has exactly k bits. -/
def encodeBlock (r : Nat) (dataBits : List Nat) : Option (List Nat) :=
  if dataBits.length = hammingK r then some (encodeBlockCore r dataBits) else none

/-- The in-place bit flip `bits[i] ^= 1` used by the decoder and by error
injection. -/
def flipBitAt (l : List Nat) (i : Nat) : List Nat :=
  l.set i ((l.getD i 0) ^^^ 1)

/-- Hamming._check_errors_block: the syndrome bits (one XOR sum per matrix
row over all n codeword bits), the packed syndrome value, and the
global-parity mismatch flag. -/
def checkErrorsBlock (r : Nat) (encodedBits : List Nat) : List Nat × Nat × Bool :=
  let syndrome := (hammingH r).map (fun row => xorDot encodedBits row)
  let syndromeVal := syndrome.enum.foldl (fun v ib => v ||| (ib.2 <<< ib.1)) 0
  let gRecv := encodedBits.getLast?.getD 0
  let calcParity := encodedBits.dropLast.sum &&& 1
  (syndrome, syndromeVal, decide (calcParity ≠ gRecv))

/-- Hamming._handler_decoded_errors: case analysis on the syndrome and the
global-parity flag, flipping the syndrome position when it lies in 1..k. -/
def handlerDecodedErrors (r : Nat) (encodedBits : List Nat) (doubleError : Bool)
    (syndromeVal : Nat) : List Nat × Bool × Int × Bool :=
  let k := hammingK r
  let data := encodedBits.take k
  if syndromeVal = 0 ∧ doubleError = false then (data, false, -1, false)
  else if syndromeVal ≠ 0 ∧ doubleError = true then (data, false, -1, true)
  else if ¬(1 ≤ syndromeVal ∧ syndromeVal ≤ k) then (data, false, -1, true)
  else ((flipBitAt encodedBits (syndromeVal - 1)).take k, true, (syndromeVal : Int), false)

/-- Hamming._decode_block: raises (none) unless the codeword has exactly n
bits, then checks errors and dispatches to the handler. -/
def decodeBlock (r : Nat) (encodedBits : List Nat) :
    Option (List Nat × Bool × Int × Bool) :=
  if encodedBits.length = hammingN r then
    some (handlerDecodedErrors r encodedBits (checkErrorsBlock r encodedBits).2.2
      (checkErrorsBlock r encodedBits).2.1)
  else none

/-- Slices a list into size-k chunks (fuel-driven; every use has k ≥ 1 and
fuel = list length, which suffices since each step consumes at least one
element). -/
def chunkGo (k : Nat) : Nat → List Nat → List (List Nat)
  | 0, _ => []
  | _, [] => []
  | fuel + 1, l => l.take k :: chunkGo k fuel (l.drop k)

def chunkK (k : Nat) (l : List Nat) : List (List Nat) := chunkGo k l.length l

/-- Hamming.pack: bytes to bits, zero-pad to a multiple of k, encode every
k-bit block into n bits, repack the bits as bytes; returns the encoded bytes
and the pad-bit count. -/
def hammingPack (r : Nat) (data : List Nat) : Option (List Nat × Nat) :=
  let bits := bytesToBits data
  let k := hammingK r
  let padding := (k - bits.length % k) % k
  let padded := bits ++ List.replicate padding 0
  match (chunkK k padded).mapM (encodeBlock r) with
  | none => none
  | some blocks => some (bitsToBytes blocks.flatten, padding)

/-- Hamming.unpack: bytes to bits, decode every full n-bit block (the loop
breaks on a trailing partial block, modelled by the length filter), sum the
corrected and uncorrectable counters, trim the pad bits, repack as bytes. -/
def hammingUnpack (r : Nat) (data : List Nat) (padding : Nat) :
    Option (List Nat × Nat × Nat) :=
  let n := hammingN r
  let blocks := (chunkK n (bytesToBits data)).filter (fun b => b.length == n)
  match blocks.mapM (decodeBlock r) with
  | none => none
  | some results =>
      let decodedBits := (results.map (fun t => t.1)).flatten
      let corrected := results.countP (fun t => t.2.1)
      let uncorrectable := results.countP (fun t => t.2.2.2)
      let trimmed :=
        if padding ≠ 0 then decodedBits.take (decodedBits.length - padding) else decodedBits
      some (bitsToBytes trimmed, corrected, uncorrectable)

/-- C2 (code bug): the Hamming round trip restores the original bytes but
reports a spurious uncorrectable error for every clean codeword whose data
plus parity bits have odd total weight, because the syndrome of a valid
codeword equals g times the all-ones column instead of zero: at r = 3,
packing byte 0xE0 and unpacking the undisturbed result reports one
uncorrectable error where the claim requires zero. -/
theorem c2_hamming_roundtrip_flags_bug :
    hammingPack 3 [0xE0] = some ([0xE1, 0x00], 0) ∧
      hammingUnpack 3 [0xE1, 0x00] 0 = some ([0xE0], 0, 1) := by decide

/-- C3 (code bug): a single flipped bit is reported as uncorrectable and left
in place, because the handler branch for a nonzero syndrome with failed
global parity returns uncorrectable although that signature is exactly a
single-bit error: at r = 3 the data block 1011 encodes to 10110111, and
flipping bit 1 decodes to wrong data 0011 with corrected = false and
uncorrectable = true. -/
theorem c3_single_bit_correction_bug :
    encodeBlock 3 [1, 0, 1, 1] = some [1, 0, 1, 1, 0, 1, 1, 1] ∧
      decodeBlock 3 (flipBitAt [1, 0, 1, 1, 0, 1, 1, 1] 0) =
        some ([0, 0, 1, 1], false, -1, true) := by decide

theorem hammingN_eq (r : Nat) : hammingN r = 2 ^ r := Nat.one_shiftLeft r

theorem hammingK_add (r : Nat) : hammingK r + r + 1 = hammingN r := by
  have h := Nat.lt_two_pow r
  rw [hammingK, hammingN_eq]
  omega

theorem hammingN_ge (r : Nat) (hr : 2 ≤ r) : 4 ≤ hammingN r := by
  rw [hammingN_eq]
  calc 4 = 2 ^ 2 := rfl
    _ ≤ 2 ^ r := Nat.pow_le_pow_right (by omega) hr

theorem hammingH_length (r : Nat) : (hammingH r).length = r := by
  simp [hammingH]

theorem calcParityBits_fst_length (r : Nat) (d : List Nat) :
    (calcParityBits r d).1.length = r := by
  simp [calcParityBits, hammingH_length]

theorem encodeBlockCore_length (r : Nat) (d : List Nat) :
    (encodeBlockCore r d).length = d.length + r + 1 := by
  simp [encodeBlockCore, calcParityBits_fst_length]
  omega

theorem getD_map_range {α : Type} (f : Nat → α) (n j : Nat) (h : j < n) (d : α) :
    ((List.range n).map f).getD j d = f j := by
  rw [List.getD_eq_getElem?_getD, List.getElem?_map, List.getElem?_range h]
  rfl

/-- C4 counterexample: Hamming(3) derives block length 8, not 2^3 - 1 = 7 as
the claim states. -/
theorem c4_block_length_counterexample : hammingN 3 = 8 ∧ ¬ hammingN 3 = 2 ^ 3 - 1 := by
  decide

theorem getD_append_lt {α : Type} (a b : List α) (i : Nat) (d : α) (h : i < a.length) :
    (a ++ b).getD i d = a.getD i d := by
  rw [List.getD_eq_getElem?_getD, List.getD_eq_getElem?_getD, List.getElem?_append_left h]

theorem getD_append_ge {α : Type} (a b : List α) (i : Nat) (d : α) (h : a.length ≤ i) :
    (a ++ b).getD i d = b.getD (i - a.length) d := by
  rw [List.getD_eq_getElem?_getD, List.getD_eq_getElem?_getD, List.getElem?_append_right h]

/-- C4 amended: constructing Hamming(r) derives block length n = 2^r, payload
length k = n - r - 1, and an r-row check matrix whose row j holds the binary
digits of the 1-based data positions 1..k, then an identity block over the r
parity positions k+1..k+r, then a final all-ones global-parity column at
position n - not the claimed n = 2^r - 1 with parity bits at the power-of-two
positions. -/
theorem c4_derived_parameters_amended (r : Nat) (hr : 2 ≤ r) :
    hammingN r = 2 ^ r ∧ hammingK r = 2 ^ r - r - 1 ∧ (hammingH r).length = r ∧
      ∀ j, j < r →
        ((hammingH r).getD j []).length = hammingN r ∧
        (∀ i, i < hammingK r →
          ((hammingH r).getD j []).getD i 0 = ((i + 1) >>> j) &&& 1) ∧
        (∀ i, i < r →
          ((hammingH r).getD j []).getD (hammingK r + i) 0 = if i = j then 1 else 0) ∧
        ((hammingH r).getD j []).getD (hammingN r - 1) 0 = 1 := by
  refine ⟨hammingN_eq r, by rw [hammingK, hammingN_eq], hammingH_length r, ?_⟩
  intro j hj
  have hrow : (hammingH r).getD j [] =
      ((List.range (hammingK r)).map (fun i => ((i + 1) >>> j) &&& 1)) ++
        (((List.range r).map (fun i => if i = j then 1 else 0)) ++ [1]) := by
    rw [hammingH, getD_map_range _ _ _ hj, List.append_assoc]
  have hlenA : ((List.range (hammingK r)).map
      (fun i => ((i + 1) >>> j) &&& 1)).length = hammingK r := by simp
  have hlenB : ((List.range r).map
      (fun i => if i = j then (1 : Nat) else 0)).length = r := by simp
  refine ⟨?_, ?_, ?_, ?_⟩
  · rw [hrow]
    simp only [List.length_append, List.length_map, List.length_range, List.length_cons,
      List.length_nil]
    have := hammingK_add r
    omega
  · intro i hi
    rw [hrow, getD_append_lt _ _ _ _ (by rw [hlenA]; exact hi)]
    exact getD_map_range _ _ _ hi _
  · intro i hi
    rw [hrow, getD_append_ge _ _ _ _ (by rw [hlenA]; omega)]
    rw [hlenA, Nat.add_sub_cancel_left]
    rw [getD_append_lt _ _ _ _ (by rw [hlenB]; exact hi)]
    exact getD_map_range _ _ _ hi _
  · rw [hrow, getD_append_ge _ _ _ _ (by rw [hlenA]; have := hammingK_add r; omega)]
    rw [hlenA]
    rw [getD_append_ge _ _ _ _ (by rw [hlenB]; have := hammingK_add r; omega)]
    rw [hlenB]
    have he : hammingN r - 1 - hammingK r - r = 0 := by have := hammingK_add r; omega
    rw [he]
    rfl

/-- Witness for C4 at r = 3: the full amended statement holds there. -/
theorem c4_derived_parameters_witness :
    hammingN 3 = 2 ^ 3 ∧ hammingK 3 = 2 ^ 3 - 3 - 1 ∧ (hammingH 3).length = 3 ∧
      ∀ j, j < 3 →
        ((hammingH 3).getD j []).length = hammingN 3 ∧
        (∀ i, i < hammingK 3 →
          ((hammingH 3).getD j []).getD i 0 = ((i + 1) >>> j) &&& 1) ∧
        (∀ i, i < 3 →
          ((hammingH 3).getD j []).getD (hammingK 3 + i) 0 = if i = j then 1 else 0) ∧
        ((hammingH 3).getD j []).getD (hammingN 3 - 1) 0 = 1 :=
  c4_derived_parameters_amended 3 (by decide)

theorem dropLast_set {α : Type} (l : List α) (i : Nat) (a : α) :
    (l.set i a).dropLast = l.dropLast.set i a := by
  rw [List.dropLast_eq_take, List.dropLast_eq_take, List.length_set, List.set_take]

theorem getLast?_set_lt {α : Type} (l : List α) (i : Nat) (a : α) (h : i + 1 < l.length) :
    (l.set i a).getLast? = l.getLast? := by
  rw [List.getLast?_eq_getElem?, List.getLast?_eq_getElem?, List.length_set]
  rw [List.getElem?_set_ne (by omega)]

theorem getLast?_set_last {α : Type} (l : List α) (a : α) (h : 0 < l.length) :
    (l.set (l.length - 1) a).getLast? = some a := by
  rw [List.getLast?_eq_getElem?, List.length_set]
  exact List.getElem?_set_self (by omega)

theorem getD_set_ne {α : Type} (l : List α) (i j : Nat) (a d : α) (h : i ≠ j) :
    (l.set i a).getD j d = l.getD j d := by
  rw [List.getD_eq_getElem?_getD, List.getD_eq_getElem?_getD, List.getElem?_set_ne h]

theorem getD_dropLast {α : Type} (l : List α) (i : Nat) (d : α) (h : i < l.length - 1) :
    l.dropLast.getD i d = l.getD i d := by
  rw [List.dropLast_eq_take, List.getD_eq_getElem?_getD, List.getD_eq_getElem?_getD]
  rw [List.getElem?_take_of_lt h]

theorem flipBitAt_sum_parity (l : List Nat) (i : Nat) (h : i < l.length) :
    (flipBitAt l i).sum % 2 = (l.sum + 1) % 2 := by
  induction l generalizing i with
  | nil => simp at h
  | cons x xs ih =>
      cases i with
      | zero =>
          show ((x ^^^ 1) :: xs).sum % 2 = _
          rw [List.sum_cons, List.sum_cons]
          have hx : (x ^^^ 1) % 2 = (x + 1) % 2 := Nat.xor_mod_two_eq
          omega
      | succ j =>
          have hj : j < xs.length := by simpa using h
          show (x :: flipBitAt xs j).sum % 2 = _
          rw [List.sum_cons, List.sum_cons]
          have := ih j hj
          omega

theorem flipBitAt_length (l : List Nat) (i : Nat) : (flipBitAt l i).length = l.length := by
  simp [flipBitAt]

theorem globalParity_eq (r : Nat) (d : List Nat) :
    (calcParityBits r d).2 = (d.sum + (calcParityBits r d).1.sum) % 2 := by
  show (d.sum ^^^ (calcParityBits r d).1.sum) &&& 1 = _
  rw [Nat.and_one_is_mod, Nat.xor_mod_two_eq]

theorem encodeBlockCore_decomp (r : Nat) (d : List Nat) :
    encodeBlockCore r d =
      (d ++ (calcParityBits r d).1) ++ [(calcParityBits r d).2] := by
  rw [encodeBlockCore, List.append_assoc]

theorem encodeBlockCore_dropLast (r : Nat) (d : List Nat) :
    (encodeBlockCore r d).dropLast = d ++ (calcParityBits r d).1 := by
  rw [encodeBlockCore_decomp, List.dropLast_concat]

theorem encodeBlockCore_getLast? (r : Nat) (d : List Nat) :
    (encodeBlockCore r d).getLast? = some (calcParityBits r d).2 := by
  rw [encodeBlockCore_decomp, List.getLast?_concat]

theorem encodeBlockCore_dropLast_parity (r : Nat) (d : List Nat) :
    (encodeBlockCore r d).dropLast.sum % 2 = (calcParityBits r d).2 := by
  rw [encodeBlockCore_dropLast, List.sum_append, globalParity_eq]

theorem globalParity_lt (r : Nat) (d : List Nat) : (calcParityBits r d).2 < 2 := by
  rw [globalParity_eq]
  omega

theorem encodeBlockCore_getD_last (r : Nat) (d : List Nat) :
    (encodeBlockCore r d).getD ((encodeBlockCore r d).length - 1) 0 =
      (calcParityBits r d).2 := by
  rw [encodeBlockCore_decomp]
  have hlen : ((d ++ (calcParityBits r d).1) ++ [(calcParityBits r d).2]).length =
      (d ++ (calcParityBits r d).1).length + 1 := by
    simp
    omega
  rw [hlen, Nat.add_sub_cancel, List.getD_eq_getElem?_getD, List.getElem?_concat_length]
  rfl

/-- C5 counterexample: at r = 3, flipping exactly the two bits at positions 1
and 4 of the valid all-zero codeword makes the decoder report the block
uncorrectable (syndrome 5 lies outside 1..k), refuting the claim that every
two-bit error is reported with zero uncorrectable errors and a silent
single-bit correction. -/
theorem c5_double_error_counterexample :
    encodeBlock 3 [0, 0, 0, 0] = some [0, 0, 0, 0, 0, 0, 0, 0] ∧
      decodeBlock 3 (flipBitAt (flipBitAt [0, 0, 0, 0, 0, 0, 0, 0] 0) 3) =
        some ([1, 0, 0, 1], false, -1, true) := by decide

/-- C5 amended: after exactly two bit flips inside one encoded block the
global-parity check still passes, so the dedicated double-error branch (the
one for a nonzero syndrome with failed global parity) never fires; depending
on where the syndrome lands the decoder instead silently miscorrects a third
bit, reports no error at all, or reports the block uncorrectable - as in the
concrete r = 3 case of flips at positions 1 and 2, which is silently
miscorrected to the wrong data 1110 with corrected = 1 and uncorrectable
= 0. -/
theorem c5_double_flip_amended (r : Nat) (dataBits : List Nat) (p q : Nat)
    (hr : 2 ≤ r) (hlen : dataBits.length = hammingK r)
    (hp : 1 ≤ p) (hpq : p < q) (hq : q ≤ hammingN r) :
    (checkErrorsBlock r
        (flipBitAt (flipBitAt (encodeBlockCore r dataBits) (p - 1)) (q - 1))).2.2 = false ∧
      decodeBlock 3 (flipBitAt (flipBitAt (encodeBlockCore 3 [0, 0, 0, 0]) 0) 1) =
        some ([1, 1, 1, 0], true, 3, false) := by
  refine ⟨?_, by decide⟩
  set cw := encodeBlockCore r dataBits with hcw
  have hn4 : 4 ≤ hammingN r := hammingN_ge r hr
  have hcwlen : cw.length = hammingN r := by
    rw [hcw, encodeBlockCore_length, hlen, hammingK_add]
  set g := (calcParityBits r dataBits).2 with hg
  have hglt : g < 2 := globalParity_lt r dataBits
  have hcalc : cw.dropLast.sum % 2 = g := encodeBlockCore_dropLast_parity r dataBits
  have hlast : cw.getLast? = some g := encodeBlockCore_getLast? r dataBits
  set w1 := flipBitAt cw (p - 1) with hw1
  set w2 := flipBitAt w1 (q - 1) with hw2
  have hw1len : w1.length = hammingN r := by rw [hw1, flipBitAt_length, hcwlen]
  have hw2len : w2.length = hammingN r := by rw [hw2, flipBitAt_length, hw1len]
  have hp1 : p - 1 < hammingN r - 1 := by omega
  have hw1drop : w1.dropLast = flipBitAt cw.dropLast (p - 1) := by
    rw [hw1, flipBitAt, flipBitAt, dropLast_set]
    rw [getD_dropLast cw (p - 1) 0 (by omega)]
  have hw1dropSum : w1.dropLast.sum % 2 = (cw.dropLast.sum + 1) % 2 := by
    rw [hw1drop]
    exact flipBitAt_sum_parity _ _ (by rw [List.length_dropLast, hcwlen]; omega)
  -- the target flag is (dropLast sum parity differs from the last bit)
  suffices hflag : w2.dropLast.sum &&& 1 = w2.getLast?.getD 0 by
    simp only [checkErrorsBlock, hflag]
    simp
  rcases Nat.lt_or_ge q (hammingN r) with hqlt | hqge
  · -- both flips lie strictly before the global-parity position
    have hq1 : q - 1 < hammingN r - 1 := by omega
    have hw2drop : w2.dropLast = flipBitAt w1.dropLast (q - 1) := by
      rw [hw2, flipBitAt, flipBitAt, dropLast_set]
      rw [getD_dropLast w1 (q - 1) 0 (by omega)]
    have hw2dropSum : w2.dropLast.sum % 2 = (w1.dropLast.sum + 1) % 2 := by
      rw [hw2drop]
      exact flipBitAt_sum_parity _ _ (by rw [List.length_dropLast, hw1len]; omega)
    have hlast2 : w2.getLast? = some g := by
      rw [hw2, flipBitAt, getLast?_set_lt w1 _ _ (by omega)]
      rw [hw1, flipBitAt, getLast?_set_lt cw _ _ (by omega)]
      exact hlast
    rw [Nat.and_one_is_mod, hw2dropSum, hlast2]
    show (w1.dropLast.sum + 1) % 2 = g
    omega
  · -- the second flip hits the global-parity bit itself
    have hqn : q = hammingN r := by omega
    have hw2drop : w2.dropLast = w1.dropLast := by
      rw [hw2, flipBitAt, dropLast_set]
      apply List.set_eq_of_length_le
      rw [List.length_dropLast, hw1len]
      omega
    have hgpos : w1.getD (q - 1) 0 = g := by
      rw [hw1, flipBitAt, getD_set_ne cw _ _ _ _ (by omega)]
      have := encodeBlockCore_getD_last r dataBits
      rw [← hcw, hcwlen] at this
      rw [hqn]
      exact this
    have hlast2 : w2.getLast? = some (g ^^^ 1) := by
      rw [hw2, flipBitAt, hgpos]
      have hidx : q - 1 = w1.length - 1 := by omega
      rw [hidx]
      exact getLast?_set_last w1 _ (by omega)
    rw [Nat.and_one_is_mod, hw2drop, hw1dropSum, hlast2]
    show (cw.dropLast.sum + 1) % 2 = (g ^^^ 1)
    have hx : (g ^^^ 1) % 2 = (g + 1) % 2 := Nat.xor_mod_two_eq
    have hxlt : g ^^^ 1 < 2 := by
      interval_cases g
      · decide
      · decide
    omega

/-- Witness for C5 at r = 3, the zero data block, and flip positions 1 and 4. -/
theorem c5_double_flip_witness :
    (checkErrorsBlock 3
        (flipBitAt (flipBitAt (encodeBlockCore 3 [0, 0, 0, 0]) 0) 3)).2.2 = false ∧
      decodeBlock 3 (flipBitAt (flipBitAt (encodeBlockCore 3 [0, 0, 0, 0]) 0) 1) =
        some ([1, 1, 1, 0], true, 3, false) :=
  c5_double_flip_amended 3 [0, 0, 0, 0] 1 4 (by decide) (by decide) (by decide)
    (by decide) (by decide)

/-! ## Huffman.py -/

/-- Huffman tree nodes: a leaf symbol or a merged pair of subtrees. -/
inductive HTree where
  | leaf (sym : Nat)
  | node (left right : HTree)

/-- One step of collections.Counter: bump the count of symbol x; a first
occurrence appends at the end, matching Python dict insertion order. -/
def addCount : List (Nat × Nat) → Nat → List (Nat × Nat)
  | [], x => [(x, 1)]
  | (s, c) :: rest, x => if s = x then (s, c + 1) :: rest else (s, c) :: addCount rest x

/-- collections.Counter(data) as an association list in insertion order. -/
def counter (data : List Nat) : List (Nat × Nat) := data.foldl addCount []

/-- heappop of the minimum element from the heap x :: l, returning it and
the remaining elements; faithful to heapq because the (weight, id) keys are
compared lexicographically and the ids are distinct. -/
def popMin (x : Nat × Nat × HTree) : List (Nat × Nat × HTree) →
    (Nat × Nat × HTree) × List (Nat × Nat × HTree)
  | [] => (x, [])
  | y :: ys =>
      let m := popMin y ys
      if x.1 < m.1.1 ∨ (x.1 = m.1.1 ∧ x.2.1 ≤ m.1.2.1) then (x, y :: ys) else (m.1, x :: m.2)

/-- The while-loop of _build_huffman_lengths: pop the two lightest items,
push their merged tree with a fresh id, until one item remains. Fuel-driven;
every call passes fuel = list length, which suffices since each iteration
shortens the list. -/
def huffLoopGo : Nat → List (Nat × Nat × HTree) → Nat → Option HTree
  | _, [], _ => none
  | _, [x], _ => some x.2.2
  | 0, _ :: _ :: _, _ => none
  | fuel + 1, x :: y :: rest, uid =>
      let m1 := (popMin x (y :: rest)).1
      match (popMin x (y :: rest)).2 with
      | [] => none
      | z :: zs =>
          huffLoopGo fuel
            ((m1.1 + (popMin z zs).1.1, uid, HTree.node m1.2.2 (popMin z zs).1.2.2)
              :: (popMin z zs).2) (uid + 1)

def huffLoop (items : List (Nat × Nat × HTree)) (uid : Nat) : Option HTree :=
  huffLoopGo items.length items uid

/-- The dfs of _build_huffman_lengths: leaf symbols with their depths, in
visit order (left subtree first). -/
def leafDepths : HTree → Nat → List (Nat × Nat)
  | HTree.leaf s, depth => [(s, depth)]
  | HTree.node l r, depth => leafDepths l (depth + 1) ++ leafDepths r (depth + 1)

/-- Huffman._build_huffman_lengths: the value of self.lengths after the
call. For zero or one distinct symbols the method returns {} or {sym: 1}
without storing it, so self.lengths stays empty - the defect the spec flags
in its open questions; otherwise the dfs fills self.lengths with the depth
of every leaf. -/
def buildHuffmanLengths (freqs : List (Nat × Nat)) : List (Nat × Nat) :=
  if freqs.isEmpty then []
  else if freqs.length = 1 then []
  else
    match huffLoop (freqs.enum.map (fun p => (p.2.2, p.1, HTree.leaf p.2.1))) freqs.length with
    | some t => leafDepths t 0
    | none => []

/-- The (length, symbol) sort order of _canonical_codes_from_lengths. -/
def pairLe (a b : Nat × Nat) : Prop :=
  a.1 < b.1 ∨ (a.1 = b.1 ∧ a.2 ≤ b.2)

instance : DecidableRel pairLe := fun a b => by unfold pairLe; infer_instance

instance : IsTotal (Nat × Nat) pairLe := ⟨by intro a b; unfold pairLe; omega⟩

instance : IsTrans (Nat × Nat) pairLe := ⟨by intro a b c; unfold pairLe; omega⟩

/-- The sorted (length, symbol) pairs of the symbols with nonzero code
length (pairs.sort with key (length, symbol); the keys are distinct, so any
correct sort agrees with the stable Python sort). -/
def canonicalPairs (lengths : List (Nat × Nat)) : List (Nat × Nat) :=
  List.insertionSort pairLe
    ((lengths.filter (fun sl => decide (0 < sl.2))).map (fun sl => (sl.2, sl.1)))

/-- chars_on_layers: how many symbols have code length l. -/
def layerCount (pairs : List (Nat × Nat)) (l : Nat) : Nat :=
  pairs.countP (fun p => p.1 == l)

/-- all_codes_on_layers: the first code of each length level, generated by
code = (code + chars_on_layers[layer - 1]) << 1 starting from 0. -/
def firstCode (pairs : List (Nat × Nat)) : Nat → Nat
  | 0 => 0
  | l + 1 => (firstCode pairs l + layerCount pairs l) <<< 1

/-- The assignment loop: each sorted pair takes the next free code of its
level, bumping that level's counter. Entries are (symbol, code, length). -/
def assignCodes : List (Nat × Nat) → (Nat → Nat) → List (Nat × Nat × Nat)
  | [], _ => []
  | (l, sym) :: rest, next =>
      (sym, next l, l) :: assignCodes rest (fun m => if m = l then next l + 1 else next m)

/-- Huffman._canonical_codes_from_lengths: the canonical code table as a
(symbol, code, length) list in assignment order (the dict keys are the
distinct symbols, so the list carries the same mapping). -/
def canonicalCodes (lengths : List (Nat × Nat)) : List (Nat × Nat × Nat) :=
  assignCodes (canonicalPairs lengths) (firstCode (canonicalPairs lengths))

/-- Dictionary lookup self.canonical_codes[b]; none models the KeyError. -/
def lookupCode (codes : List (Nat × Nat × Nat)) (b : Nat) : Option (Nat × Nat) :=
  (codes.find? (fun e => e.1 == b)).map (fun e => (e.2.1, e.2.2))

/-- The bit buffer of Huffman._encode_bytes: each input symbol contributes
its code bits MSB first (byte_to_bits with the code length); none models the
KeyError on a symbol that has no code. -/
def encodeBits (codes : List (Nat × Nat × Nat)) : List Nat → Option (List Nat)
  | [] => some []
  | b :: rest =>
      match lookupCode codes b with
      | none => none
      | some cl =>
          match encodeBits codes rest with
          | none => none
          | some bs => some (natBits cl.1 cl.2 ++ bs)

/-- utils.lengths_to_bytes: a 256-byte table, entry i = code length of
symbol i masked to a byte, 0 when absent. -/
def lengthsToBytes (lengths : List (Nat × Nat)) : List Nat :=
  (List.range 256).map (fun i =>
    match lengths.find? (fun sl => sl.1 == i) with
    | some sl => sl.2 &&& 0xFF
    | none => 0)

/-- utils.lengths_from_bytes: the symbols of the first 256 entries whose
stored length is nonzero, in ascending symbol order. -/
def lengthsFromBytes (data : List Nat) : List (Nat × Nat) :=
  (data.take 256).enum.filter (fun p => p.2 != 0)

/-- Huffman.pack: count frequencies, build code lengths, derive canonical
codes, serialize the length table, emit the bit stream and pack it into
bytes with padding 8 - len % 8. -/
def huffPack (data : List Nat) : Option (List Nat × List Nat × Nat) :=
  let lengths := buildHuffmanLengths (counter data)
  let codes := canonicalCodes lengths
  match encodeBits codes data with
  | none => none
  | some bitbuf => some (bitsToBytes bitbuf, lengthsToBytes lengths, 8 - bitbuf.length % 8)

/-- The decode-table check of _decode_bits_with_table: the symbol whose
canonical code has the given length and value, if any. -/
def decodeLookup (codes : List (Nat × Nat × Nat)) (len code : Nat) : Option Nat :=
  (codes.find? (fun e => e.2.2 == len && e.2.1 == code)).map (fun e => e.1)

/-- Huffman._decode_bits_with_table: shift each bit into cur, stop once more
than totalBits bits are consumed, emit a symbol and reset on a table hit. -/
def decodeBits (codes : List (Nat × Nat × Nat)) :
    List Nat → Nat → Nat → Int → Int → List Nat
  | [], _, _, _, _ => []
  | bit :: rest, cur, curLen, consumed, total =>
      let cur2 := (cur <<< 1) ||| bit
      let curLen2 := curLen + 1
      let consumed2 := consumed + 1
      if total < consumed2 then []
      else
        match decodeLookup codes curLen2 cur2 with
        | some sym => sym :: decodeBits codes rest 0 0 consumed2 total
        | none => decodeBits codes rest cur2 curLen2 consumed2 total

/-- Huffman.unpack: rebuild the codes from the length table and decode
len(bits) - padding bits. -/
def huffUnpack (dataBytes lengthsBytes : List Nat) (padding : Nat) : List Nat :=
  let codes := canonicalCodes (lengthsFromBytes lengthsBytes)
  let bits := bytesToBits dataBytes
  decodeBits codes bits 0 0 0 ((bits.length : Int) - (padding : Int))

/-- unpack applied to the three outputs of pack, when pack succeeds. -/
def huffRound (data : List Nat) : Option (List Nat) :=
  match huffPack data with
  | none => none
  | some r => some (huffUnpack r.1 r.2.1 r.2.2)

/-- C1 (code bug): the Huffman round trip fails on the inputs the claim
quantifies over. A single-distinct-symbol input makes pack raise KeyError,
because _build_huffman_lengths computes the one-symbol table {sym: 1} but
returns it instead of storing it, leaving self.lengths empty; and any input
whose emitted bit stream is a multiple of 8 bits loses its final byte on the
round trip, because pack reports 8 - len % 8 = 8 pad bits which unpack then
strips although they are real data. The empty input does round-trip to
empty. -/
theorem c1_huffman_roundtrip_bug :
    huffRound [65] = none ∧
      huffRound [0, 1, 0, 1, 0, 1, 0, 1] = some [] ∧
      [] ≠ [0, 1, 0, 1, 0, 1, 0, 1] ∧
      huffRound [] = some [] := by decide

/-- C8 (code bug): _encode_bytes reports 8 - len % 8 pad bits, which is 8,
not 0, whenever the emitted bit stream length is an exact multiple of 8
(including the empty stream); the claim requires the padding to always lie
in 0..7 and to be 0 on exact multiples. -/
theorem c8_padding_bug :
    (huffPack [1, 0, 1, 0, 1, 0, 1, 0]).map (fun r => r.2.2) = some 8 ∧
      (huffPack []).map (fun r => r.2.2) = some 8 ∧ ¬ 8 ≤ 7 := by decide

/-! ## Canonical code properties (claim C6) -/

/-- Numeric value of an MSB-first bit list. -/
def bitsVal (bs : List Nat) : Nat := bs.foldl (fun a b => a * 2 + b) 0

theorem bitsVal_go (bs : List Nat) :
    ∀ s, bs.foldl (fun a b => a * 2 + b) s = s * 2 ^ bs.length + bitsVal bs := by
  induction bs with
  | nil => intro s; simp [bitsVal]
  | cons b bs ih =>
      intro s
      show bs.foldl _ (s * 2 + b) = s * 2 ^ (b :: bs).length + bitsVal (b :: bs)
      rw [ih (s * 2 + b)]
      have hb : bitsVal (b :: bs) = b * 2 ^ bs.length + bitsVal bs := by
        show bs.foldl _ (0 * 2 + b) = _
        rw [ih (0 * 2 + b)]
        ring
      rw [hb, List.length_cons]
      ring

theorem bitsVal_append (a b : List Nat) :
    bitsVal (a ++ b) = bitsVal a * 2 ^ b.length + bitsVal b := by
  show (a ++ b).foldl _ 0 = _
  rw [List.foldl_append, bitsVal_go]
  rfl

theorem bitsVal_lt (bs : List Nat) (h : ∀ x ∈ bs, x ≤ 1) : bitsVal bs < 2 ^ bs.length := by
  induction bs with
  | nil => simp [bitsVal]
  | cons b bs ih =>
      have hb : bitsVal (b :: bs) = b * 2 ^ bs.length + bitsVal bs := by
        show bs.foldl _ (0 * 2 + b) = _
        rw [bitsVal_go]
        ring
      rw [hb, List.length_cons, pow_succ]
      have h1 : bitsVal bs < 2 ^ bs.length := ih (fun x hx => h x (by simp [hx]))
      have h2 : b ≤ 1 := h b (by simp)
      interval_cases b
      · omega
      · omega

theorem natBits_succ (c l : Nat) : natBits c (l + 1) = ((c >>> l) &&& 1) :: natBits c l := by
  unfold natBits
  rw [List.range_succ_eq_map, List.map_cons, List.map_map]
  have h0 : l + 1 - 1 - 0 = l := by omega
  rw [h0]
  have h2 : List.map ((fun i => c >>> (l + 1 - 1 - i) &&& 1) ∘ Nat.succ) (List.range l) =
      List.map (fun i => c >>> (l - 1 - i) &&& 1) (List.range l) := by
    apply List.map_congr_left
    intro i _
    show c >>> (l + 1 - 1 - (i + 1)) &&& 1 = c >>> (l - 1 - i) &&& 1
    have : l + 1 - 1 - (i + 1) = l - 1 - i := by omega
    rw [this]
  rw [h2]

theorem natBits_val (c l : Nat) : bitsVal (natBits c l) = c % 2 ^ l := by
  induction l with
  | zero => simp [natBits, bitsVal, Nat.mod_one]
  | succ m ih =>
      rw [natBits_succ]
      have hcons : bitsVal ((c >>> m &&& 1) :: natBits c m) =
          (c >>> m &&& 1) * 2 ^ (natBits c m).length + bitsVal (natBits c m) := by
        show (natBits c m).foldl _ (0 * 2 + (c >>> m &&& 1)) = _
        rw [bitsVal_go]
        ring
      rw [hcons, natBits_length, ih]
      rw [Nat.and_one_is_mod, Nat.shiftRight_eq_div_pow]
      rw [pow_succ, Nat.mod_mul]
      ring

theorem natBits_entries_le (c l : Nat) : ∀ x ∈ natBits c l, x ≤ 1 := by
  intro x hx
  unfold natBits at hx
  obtain ⟨i, _, rfl⟩ := List.mem_map.mp hx
  exact Nat.and_le_right

theorem natBits_no_extension (c1 l1 c2 l2 : Nat) (h1 : c1 < 2 ^ l1) (h2 : c2 < 2 ^ l2)
    (hlt : (c1 + 1) * 2 ^ (l2 - l1) ≤ c2) :
    ¬ ∃ t, natBits c2 l2 = natBits c1 l1 ++ t := by
  rintro ⟨t, ht⟩
  have hlen : l2 = l1 + t.length := by
    have h := congrArg List.length ht
    simp only [natBits_length, List.length_append] at h
    omega
  have hv := congrArg bitsVal ht
  rw [natBits_val, bitsVal_append, natBits_val, Nat.mod_eq_of_lt h2, Nat.mod_eq_of_lt h1] at hv
  have htle : ∀ x ∈ t, x ≤ 1 := by
    intro x hx
    exact natBits_entries_le c2 l2 x (ht ▸ List.mem_append_right _ hx)
  have htlt : bitsVal t < 2 ^ t.length := bitsVal_lt t htle
  have hΔ : l2 - l1 = t.length := by omega
  rw [hΔ] at hlt
  have hexp : (c1 + 1) * 2 ^ t.length = c1 * 2 ^ t.length + 2 ^ t.length := by ring
  omega

theorem assignCodes_pairs (ps : List (Nat × Nat)) :
    ∀ next, (assignCodes ps next).map (fun e => (e.2.2, e.1)) = ps := by
  induction ps with
  | nil => intro next; rfl
  | cons p rest ih =>
      intro next
      obtain ⟨l, sym⟩ := p
      simp only [assignCodes, List.map_cons, ih]

theorem layerCount_cons (p : Nat × Nat) (rest : List (Nat × Nat)) (l : Nat) :
    layerCount (p :: rest) l = layerCount rest l + if p.1 = l then 1 else 0 := by
  simp only [layerCount, List.countP_cons]
  by_cases h : p.1 = l
  · simp [h]
  · simp [h]

theorem assignCodes_bounds (ps : List (Nat × Nat)) :
    ∀ next, ∀ e ∈ assignCodes ps next,
      next e.2.2 ≤ e.2.1 ∧ e.2.1 < next e.2.2 + layerCount ps e.2.2 := by
  induction ps with
  | nil => intro next e he; simp [assignCodes] at he
  | cons p rest ih =>
      intro next e he
      obtain ⟨l, sym⟩ := p
      simp only [assignCodes, List.mem_cons] at he
      rcases he with rfl | he
      · refine ⟨Nat.le_refl _, ?_⟩
        have hc := layerCount_cons (l, sym) rest l
        simp at hc
        simp only [hc]
        omega
      · have hb := ih (fun m => if m = l then next l + 1 else next m) e he
        by_cases hel : e.2.2 = l
        · rw [hel] at hb ⊢
          simp at hb
          have hc := layerCount_cons (l, sym) rest l
          simp at hc
          omega
        · simp only [if_neg hel] at hb
          have hc := layerCount_cons (l, sym) rest e.2.2
          simp only [if_neg hel] at hc
          omega

theorem assignCodes_within (ps : List (Nat × Nat)) :
    ∀ next, ps.Pairwise pairLe →
      ∀ e1 ∈ assignCodes ps next, ∀ e2 ∈ assignCodes ps next,
        e1.2.2 = e2.2.2 → e1.1 < e2.1 → e1.2.1 < e2.2.1 := by
  induction ps with
  | nil => intro next _ e1 he1; simp [assignCodes] at he1
  | cons p rest ih =>
      intro next hsort e1 he1 e2 he2 hll hss
      obtain ⟨l, sym⟩ := p
      simp only [assignCodes, List.mem_cons] at he1 he2
      rcases he1 with rfl | he1 <;> rcases he2 with rfl | he2
      · omega
      · have hb := assignCodes_bounds rest (fun m => if m = l then next l + 1 else next m) e2 he2
        have hel : e2.2.2 = l := by
          simpa using hll.symm
        rw [hel] at hb
        simp at hb
        simpa using Nat.lt_of_lt_of_le (Nat.lt_succ_self _) hb.1
      · exfalso
        have hmem : (e1.2.2, e1.1) ∈ rest := by
          rw [← assignCodes_pairs rest (fun m => if m = l then next l + 1 else next m)]
          exact List.mem_map_of_mem _ he1
        have hle := (List.pairwise_cons.mp hsort).1 _ hmem
        unfold pairLe at hle
        simp only at hll hss
        omega
      · exact ih _ (List.Pairwise.of_cons hsort) e1 he1 e2 he2 hll hss

theorem firstCode_succ (ps : List (Nat × Nat)) (l : Nat) :
    firstCode ps (l + 1) = (firstCode ps l + layerCount ps l) * 2 := by
  rw [firstCode, Nat.shiftLeft_eq, pow_one]

theorem firstCode_mono (ps : List (Nat × Nat)) (a : Nat) :
    ∀ b, a < b → (firstCode ps a + layerCount ps a) * 2 ^ (b - a) ≤ firstCode ps b := by
  intro b
  induction b with
  | zero => omega
  | succ m ih =>
      intro h
      rcases Nat.lt_succ_iff_lt_or_eq.mp h with hlt | heq
      · have h1 := ih hlt
        rw [firstCode_succ]
        have hsub : m + 1 - a = (m - a) + 1 := by omega
        rw [hsub, pow_succ, ← Nat.mul_assoc]
        have h2 : (firstCode ps a + layerCount ps a) * 2 ^ (m - a) * 2 ≤ firstCode ps m * 2 :=
          Nat.mul_le_mul_right 2 h1
        have h3 : firstCode ps m * 2 ≤ (firstCode ps m + layerCount ps m) * 2 :=
          Nat.mul_le_mul_right 2 (Nat.le_add_right _ _)
        omega
      · subst heq
        rw [firstCode_succ]
        have hsub : a + 1 - a = 1 := by omega
        rw [hsub, pow_one]

theorem firstCode_closed (ps : List (Nat × Nat)) (l : Nat) :
    firstCode ps l = ∑ j ∈ Finset.range l, layerCount ps j * 2 ^ (l - j) := by
  induction l with
  | zero => simp [firstCode]
  | succ m ih =>
      rw [firstCode_succ, ih, Finset.sum_range_succ]
      have hlast : layerCount ps m * 2 ^ (m + 1 - m) = layerCount ps m * 2 := by
        have h1 : m + 1 - m = 1 := by omega
        rw [h1, pow_one]
      rw [hlast, Nat.add_mul, Finset.sum_mul]
      have hcongr : ∀ j ∈ Finset.range m,
          layerCount ps j * 2 ^ (m - j) * 2 = layerCount ps j * 2 ^ (m + 1 - j) := by
        intro j hj
        have hj2 : j < m := Finset.mem_range.mp hj
        have h2 : m + 1 - j = (m - j) + 1 := by omega
        rw [h2, pow_succ, Nat.mul_assoc]
      rw [Finset.sum_congr rfl hcongr]

theorem levels_le_listSum (ps : List (Nat × Nat)) (L : Nat) (hle : ∀ p ∈ ps, p.1 ≤ L) :
    ∑ j ∈ Finset.range (L + 1), layerCount ps j * 2 ^ (L - j) ≤
      (ps.map (fun p => 2 ^ (L - p.1))).sum := by
  induction ps with
  | nil => simp [layerCount]
  | cons p rest ih =>
      have hrest := ih (fun q hq => hle q (by simp [hq]))
      have hsum : ∑ j ∈ Finset.range (L + 1), layerCount (p :: rest) j * 2 ^ (L - j) =
          (∑ j ∈ Finset.range (L + 1), layerCount rest j * 2 ^ (L - j)) + 2 ^ (L - p.1) := by
        have hsplit : ∀ j ∈ Finset.range (L + 1),
            layerCount (p :: rest) j * 2 ^ (L - j) =
              layerCount rest j * 2 ^ (L - j) + (if p.1 = j then 2 ^ (L - j) else 0) := by
          intro j _
          rw [layerCount_cons]
          by_cases h : p.1 = j
          · simp [h]
            ring
          · simp [h]
        rw [Finset.sum_congr rfl hsplit, Finset.sum_add_distrib]
        congr 1
        rw [Finset.sum_ite_eq]
        have hmem : p.1 ∈ Finset.range (L + 1) :=
          Finset.mem_range.mpr (by have := hle p (by simp); omega)
        rw [if_pos hmem]
      rw [hsum]
      have hmap : ((p :: rest).map (fun q => 2 ^ (L - q.1))).sum =
          2 ^ (L - p.1) + (rest.map (fun q => 2 ^ (L - q.1))).sum := by
        simp
      rw [hmap]
      omega

theorem leafDepths_depth_ge (t : HTree) : ∀ d, ∀ p ∈ leafDepths t d, d ≤ p.2 := by
  induction t with
  | leaf s => intro d p hp; simp [leafDepths] at hp; subst hp; simp
  | node a b iha ihb =>
      intro d p hp
      rw [leafDepths, List.mem_append] at hp
      rcases hp with hp | hp
      · exact le_trans (by omega) (iha (d + 1) p hp)
      · exact le_trans (by omega) (ihb (d + 1) p hp)

theorem leafDepths_ne_nil (t : HTree) (d : Nat) : leafDepths t d ≠ [] := by
  cases t with
  | leaf s => simp [leafDepths]
  | node a b =>
      rw [leafDepths]
      intro h
      rcases List.append_eq_nil.mp h with ⟨ha, _⟩
      exact leafDepths_ne_nil a (d + 1) ha

theorem leafDepths_kraft (t : HTree) :
    ∀ d L, (∀ p ∈ leafDepths t d, p.2 ≤ L) → d ≤ L →
      ((leafDepths t d).map (fun p => 2 ^ (L - p.2))).sum ≤ 2 ^ (L - d) := by
  induction t with
  | leaf s =>
      intro d L hle _
      simp [leafDepths]
  | node a b iha ihb =>
      intro d L hle hdL
      have hmemA : ∀ p ∈ leafDepths a (d + 1), p.2 ≤ L := fun p hp =>
        hle p (by rw [leafDepths, List.mem_append]; exact Or.inl hp)
      have hmemB : ∀ p ∈ leafDepths b (d + 1), p.2 ≤ L := fun p hp =>
        hle p (by rw [leafDepths, List.mem_append]; exact Or.inr hp)
      have hd1L : d + 1 ≤ L := by
        obtain ⟨p, hp⟩ := List.exists_mem_of_ne_nil _ (leafDepths_ne_nil a (d + 1))
        have h1 := leafDepths_depth_ge a (d + 1) p hp
        have h2 := hmemA p hp
        omega
      have ha := iha (d + 1) L hmemA hd1L
      have hb := ihb (d + 1) L hmemB hd1L
      rw [leafDepths, List.map_append, List.sum_append]
      have hpow : 2 ^ (L - d) = 2 ^ (L - (d + 1)) + 2 ^ (L - (d + 1)) := by
        have h3 : L - d = (L - (d + 1)) + 1 := by omega
        rw [h3, pow_succ]
        omega
      omega

theorem kraft_level_bound (ps : List (Nat × Nat)) (L : Nat)
    (hle : ∀ p ∈ ps, p.1 ≤ L)
    (hK : (ps.map (fun p => 2 ^ (L - p.1))).sum ≤ 2 ^ L) :
    ∀ l, l ≤ L → firstCode ps l + layerCount ps l ≤ 2 ^ l := by
  intro l hl
  have hclosed : firstCode ps l + layerCount ps l =
      ∑ j ∈ Finset.range (l + 1), layerCount ps j * 2 ^ (l - j) := by
    rw [firstCode_closed, Finset.sum_range_succ]
    have hzero : l - l = 0 := by omega
    rw [hzero, pow_zero, Nat.mul_one]
  have hscale : (firstCode ps l + layerCount ps l) * 2 ^ (L - l) =
      ∑ j ∈ Finset.range (l + 1), layerCount ps j * 2 ^ (L - j) := by
    rw [hclosed, Finset.sum_mul]
    apply Finset.sum_congr rfl
    intro j hj
    have hj2 : j < l + 1 := Finset.mem_range.mp hj
    rw [Nat.mul_assoc, ← pow_add]
    congr 2
    omega
  have hsub : ∑ j ∈ Finset.range (l + 1), layerCount ps j * 2 ^ (L - j) ≤
      ∑ j ∈ Finset.range (L + 1), layerCount ps j * 2 ^ (L - j) :=
    Finset.sum_le_sum_of_subset (Finset.range_subset.mpr (by omega))
  have hchain : (firstCode ps l + layerCount ps l) * 2 ^ (L - l) ≤ 2 ^ l * 2 ^ (L - l) := by
    rw [hscale, ← pow_add]
    have hLL : l + (L - l) = L := by omega
    rw [hLL]
    exact le_trans hsub (le_trans (levels_le_listSum ps L hle) hK)
  exact Nat.le_of_mul_le_mul_right hchain (Nat.pow_pos (by omega))

/-- Largest element of a list of naturals (0 for the empty list). -/
def listMax (l : List Nat) : Nat := l.foldr max 0

theorem le_listMax (l : List Nat) : ∀ x ∈ l, x ≤ listMax l := by
  induction l with
  | nil => simp
  | cons y ys ih =>
      intro x hx
      rcases List.mem_cons.mp hx with rfl | hx
      · exact le_max_left _ _
      · exact le_trans (ih x hx) (le_max_right _ _)

theorem buildHuffmanLengths_cases (fr : List (Nat × Nat)) :
    buildHuffmanLengths fr = [] ∨ ∃ t, buildHuffmanLengths fr = leafDepths t 0 := by
  unfold buildHuffmanLengths
  split
  · exact Or.inl rfl
  split
  · exact Or.inl rfl
  split
  · exact Or.inr ⟨_, rfl⟩
  · exact Or.inl rfl

theorem canonicalPairs_kraft (lengths : List (Nat × Nat)) (t : HTree)
    (hlen : lengths = leafDepths t 0) :
    ∃ L, (∀ p ∈ canonicalPairs lengths, p.1 ≤ L) ∧
      ((canonicalPairs lengths).map (fun p => 2 ^ (L - p.1))).sum ≤ 2 ^ L := by
  refine ⟨listMax ((leafDepths t 0).map (fun p => p.2)), ?_, ?_⟩
  · intro p hp
    have hperm := List.perm_insertionSort pairLe
      ((lengths.filter (fun sl => decide (0 < sl.2))).map (fun sl => (sl.2, sl.1)))
    have hmem := hperm.mem_iff.mp hp
    obtain ⟨q, hq, rfl⟩ := List.mem_map.mp hmem
    apply le_listMax
    apply List.mem_map_of_mem
    rw [← hlen]
    exact List.mem_of_mem_filter hq
  · have hperm := List.perm_insertionSort pairLe
      ((lengths.filter (fun sl => decide (0 < sl.2))).map (fun sl => (sl.2, sl.1)))
    set L := listMax ((leafDepths t 0).map (fun p => p.2)) with hL
    have h1 : ((canonicalPairs lengths).map (fun p => 2 ^ (L - p.1))).sum =
        (((lengths.filter (fun sl => decide (0 < sl.2))).map (fun sl => (sl.2, sl.1))).map
          (fun p => 2 ^ (L - p.1))).sum := (hperm.map _).sum_eq
    have h2 : (((lengths.filter (fun sl => decide (0 < sl.2))).map (fun sl => (sl.2, sl.1))).map
          (fun p => 2 ^ (L - p.1))) =
        (lengths.filter (fun sl => decide (0 < sl.2))).map (fun sl => 2 ^ (L - sl.2)) := by
      rw [List.map_map]
      rfl
    have h3 : List.Sublist
        ((lengths.filter (fun sl => decide (0 < sl.2))).map (fun sl => 2 ^ (L - sl.2)))
        (lengths.map (fun sl => 2 ^ (L - sl.2))) :=
      List.Sublist.map _ (List.filter_sublist _)
    have h4 := h3.sum_le_sum (fun a _ => Nat.zero_le a)
    have h5 : (lengths.map (fun sl => 2 ^ (L - sl.2))).sum ≤ 2 ^ L := by
      rw [hlen]
      have hk := leafDepths_kraft t 0 L
        (fun p hp => le_listMax _ _ (List.mem_map_of_mem _ hp)) (Nat.zero_le L)
      simpa using hk
    rw [h1, h2]
    exact le_trans h4 h5

/-- The canonical code table Huffman.pack derives for the given input. -/
def huffCodes (data : List Nat) : List (Nat × Nat × Nat) :=
  canonicalCodes (buildHuffmanLengths (counter data))

/-- C6: for every code-length table the codec derives, the canonical codes
are assigned in sorted (length ascending, symbol ascending) order; each
level's first code obeys the (previous first code + previous count) << 1
recurrence; no code's bit string is an initial segment of a code of a
different length; and within one length level codes are strictly increasing
with the symbol value. -/
theorem c6_canonical_prefix_free (data : List Nat) :
    ((huffCodes data).map (fun e => (e.2.2, e.1))).Pairwise pairLe ∧
      (∀ l, firstCode (canonicalPairs (buildHuffmanLengths (counter data))) (l + 1) =
        (firstCode (canonicalPairs (buildHuffmanLengths (counter data))) l +
          layerCount (canonicalPairs (buildHuffmanLengths (counter data))) l) <<< 1) ∧
      (∀ e1 ∈ huffCodes data, ∀ e2 ∈ huffCodes data, e1.2.2 ≠ e2.2.2 →
        ¬ ∃ tl, natBits e2.2.1 e2.2.2 = natBits e1.2.1 e1.2.2 ++ tl) ∧
      (∀ e1 ∈ huffCodes data, ∀ e2 ∈ huffCodes data, e1.2.2 = e2.2.2 → e1.1 < e2.1 →
        e1.2.1 < e2.2.1) := by
  set lengths := buildHuffmanLengths (counter data) with hlengths
  set cps := canonicalPairs lengths with hcps
  have hKraft : ∃ L, (∀ p ∈ cps, p.1 ≤ L) ∧
      ((cps.map (fun p => 2 ^ (L - p.1))).sum ≤ 2 ^ L) := by
    rcases buildHuffmanLengths_cases (counter data) with hnil | ⟨t, ht⟩
    · refine ⟨0, ?_, ?_⟩ <;> rw [hcps, hlengths, hnil] <;> simp [canonicalPairs]
    · exact canonicalPairs_kraft lengths t (by rw [hlengths, ht])
  obtain ⟨L, hLle, hLsum⟩ := hKraft
  have hB := kraft_level_bound cps L hLle hLsum
  have hsorted : cps.Pairwise pairLe := List.sorted_insertionSort pairLe _
  have hpair : ∀ e ∈ huffCodes data, (e.2.2, e.1) ∈ cps := by
    intro e he
    rw [← assignCodes_pairs cps (firstCode cps)]
    exact List.mem_map_of_mem _ he
  refine ⟨?_, ?_, ?_, ?_⟩
  · show ((assignCodes cps (firstCode cps)).map (fun e => (e.2.2, e.1))).Pairwise pairLe
    rw [assignCodes_pairs cps (firstCode cps)]
    exact hsorted
  · intro l
    rfl
  · rintro e1 he1 e2 he2 hne ⟨tl, htl⟩
    have hlen2 : e2.2.2 = e1.2.2 + tl.length := by
      have h := congrArg List.length htl
      simp only [natBits_length, List.length_append] at h
      omega
    have hl12 : e1.2.2 < e2.2.2 := by omega
    have hb1 := assignCodes_bounds cps (firstCode cps) e1 he1
    have hb2 := assignCodes_bounds cps (firstCode cps) e2 he2
    have hl1L : e1.2.2 ≤ L := hLle _ (hpair e1 he1)
    have hl2L : e2.2.2 ≤ L := hLle _ (hpair e2 he2)
    have hc1 : e1.2.1 < 2 ^ e1.2.2 := lt_of_lt_of_le hb1.2 (hB e1.2.2 hl1L)
    have hc2 : e2.2.1 < 2 ^ e2.2.2 := lt_of_lt_of_le hb2.2 (hB e2.2.2 hl2L)
    have hmono := firstCode_mono cps e1.2.2 e2.2.2 hl12
    have hstep : (e1.2.1 + 1) * 2 ^ (e2.2.2 - e1.2.2) ≤ e2.2.1 := by
      have h1 : e1.2.1 + 1 ≤ firstCode cps e1.2.2 + layerCount cps e1.2.2 := hb1.2
      have h2 := Nat.mul_le_mul_right (2 ^ (e2.2.2 - e1.2.2)) h1
      exact le_trans h2 (le_trans hmono hb2.1)
    exact natBits_no_extension e1.2.1 e1.2.2 e2.2.1 e2.2.2 hc1 hc2 hstep ⟨tl, htl⟩
  · intro e1 he1 e2 he2 hll hss
    exact assignCodes_within cps (firstCode cps) hsorted e1 he1 e2 he2 hll hss

/-- Witness for C6 on the concrete input AAB: it derives the table
{A: (0, 1), B: (1, 1)}, and the within-level clause gives 0 < 1 for the
two codes of length 1. -/
theorem c6_canonical_prefix_free_witness :
    huffCodes [65, 65, 66] = [(65, 0, 1), (66, 1, 1)] ∧ (0 : Nat) < 1 :=
  ⟨by decide,
    (c6_canonical_prefix_free [65, 65, 66]).2.2.2 (65, 0, 1) (by decide) (66, 1, 1)
      (by decide) rfl (by decide)⟩

/-! ## Archive_Formats.py: file-table records (claim C9) -/

/-- Little-endian digit list of v, w bytes. -/
def leBytes : Nat → Nat → List Nat
  | 0, _ => []
  | w + 1, v => v % 256 :: leBytes w (v / 256)

/-- struct.pack_into with the endian selector: 0 packs little endian, any
other byte-order flag packs big endian. -/
def packUInt (bo w v : Nat) : List Nat := if bo = 0 then leBytes w v else (leBytes w v).reverse

/-- A file-table record (HeaderFile dataclass); the name is carried as its
UTF-8 bytes. The lengths_codes and total_padd fields play no part in
validation or serialization and are omitted. -/
structure HeaderFile where
  crc32 : Nat
  original_size : Nat
  compressed_size : Nat
  data_offset : Nat
  flags : Nat
  control_bits : Nat
  padding_Huff : Nat
  padding_Hamm : Nat
  nameBytes : List Nat

/-- HeaderFile.validate_header; raising is modelled as false. The zip-bomb
branch keeps the source's chained comparison 1000 > ratio < 0, which is
(1000 > ratio) and (ratio < 0), over exact rationals; its second conjunct
can never hold, exactly as in the source. -/
def validateHeaderFile (h : HeaderFile) : Bool :=
  if h.nameBytes.length > 0x111 then false
  else if h.data_offset < 352 then false
  else if h.compressed_size ≠ 0 ∧ h.original_size ≠ 0 ∧
      (1000 > (h.original_size : ℚ) / (h.compressed_size : ℚ) ∧
        (h.original_size : ℚ) / (h.compressed_size : ℚ) < 0) then false
  else if h.compressed_size > 2 <<< 30 ∨ (h.original_size > 2 <<< 30 ∧ h.compressed_size = 0)
    then false
  else if h.control_bits > 10 then false
  else if h.padding_Huff > 7 ∨ h.padding_Hamm > 7 then false
  else true

/-- HeaderFile.to_bytes: validates, then emits the 30-byte fixed prefix
(signature DPFH, crc32, sizes, offset, flag bytes, name length) followed by
the name bytes; the struct writes are at consecutive offsets, so the buffer
is their concatenation. -/
def headerFileToBytes (bo : Nat) (h : HeaderFile) : Option (List Nat) :=
  if validateHeaderFile h = false then none
  else some ([0x44, 0x50, 0x46, 0x48] ++ packUInt bo 4 h.crc32 ++
    packUInt bo 4 h.original_size ++ packUInt bo 4 h.compressed_size ++
    packUInt bo 8 h.data_offset ++
    [h.flags &&& 0xFF, h.control_bits &&& 0xFF, h.padding_Huff &&& 0xFF,
      h.padding_Hamm &&& 0xFF] ++ packUInt bo 2 h.nameBytes.length ++ h.nameBytes)

/-- C9 (code bug): a record with compressed_size = 0 and data_offset = 0 and
every other field within bounds fails validation and serialization, because
validate_header requires data_offset >= 352 unconditionally; the identical
record with data_offset = 352 validates, so the offset check is the sole
blocker. The claim (and the module docstring plus the writer, which forces
data_offset = 0 for empty payloads) makes the requirement conditional on
compressed_size != 0. -/
theorem c9_zero_offset_record_bug :
    validateHeaderFile (HeaderFile.mk 0 0 0 0 0 0 0 0 [97]) = false ∧
      headerFileToBytes 0 (HeaderFile.mk 0 0 0 0 0 0 0 0 [97]) = none ∧
      validateHeaderFile (HeaderFile.mk 0 0 0 352 0 0 0 0 [97]) = true := by
  refine ⟨rfl, rfl, ?_⟩
  rfl

/-! ## Archive_Formats.py: archive header and checksum (claim C7) -/

/-- One LFSR round of the reflected CRC-32 used by zlib.crc32 (polynomial
0xEDB88320); the archive code delegates to zlib, modelled here bit by bit. -/
def crcRound (c : Nat) : Nat := (c >>> 1) ^^^ ((c &&& 1) * 0xEDB88320)

/-- One input byte of zlib.crc32: xor into the state, then eight rounds. -/
def crcByteStep (c b : Nat) : Nat :=
  crcRound (crcRound (crcRound (crcRound (crcRound (crcRound (crcRound (crcRound (c ^^^ b))))))))

/-- zlib.crc32 over a byte list (initial value and final mask 0xFFFFFFFF). -/
def crc32 (data : List Nat) : Nat := (data.foldl crcByteStep 0xFFFFFFFF) ^^^ 0xFFFFFFFF

theorem xor_cancel_nat (a b p : Nat) (h : a ^^^ p = b ^^^ p) : a = b := by
  have h2 := congrArg (fun x => x ^^^ p) h
  simpa [Nat.xor_assoc] using h2

theorem crcRound_lt (c : Nat) (h : c < 2 ^ 32) : crcRound c < 2 ^ 32 := by
  unfold crcRound
  apply Nat.xor_lt_two_pow
  · rw [Nat.shiftRight_one]
    have := Nat.div_le_self c 2
    omega
  · have h1 : c &&& 1 ≤ 1 := Nat.and_le_right
    have h2 : c &&& 1 = 0 ∨ c &&& 1 = 1 := by omega
    rcases h2 with h2 | h2 <;> rw [h2] <;> decide

theorem crcRound_inj (a b : Nat) (ha : a < 2 ^ 32) (hb : b < 2 ^ 32) (hne : a ≠ b) :
    crcRound a ≠ crcRound b := by
  unfold crcRound
  rw [Nat.shiftRight_one, Nat.shiftRight_one, Nat.and_one_is_mod, Nat.and_one_is_mod]
  have hpa : a % 2 = 0 ∨ a % 2 = 1 := by omega
  have hpb : b % 2 = 0 ∨ b % 2 = 1 := by omega
  have hhigh : ∀ x : Nat, x < 2 ^ 31 → 2 ^ 31 ≤ x ^^^ 0xEDB88320 := by
    intro x hx
    apply Nat.testBit_implies_ge
    rw [Nat.testBit_xor, Nat.testBit_lt_two_pow hx]
    decide
  rcases hpa with ha2 | ha2 <;> rcases hpb with hb2 | hb2
  · rw [ha2, hb2]
    simp only [Nat.zero_mul, Nat.xor_zero]
    omega
  · rw [ha2, hb2]
    simp only [Nat.zero_mul, Nat.one_mul, Nat.xor_zero]
    have h1 : a / 2 < 2 ^ 31 := by omega
    have h2 := hhigh (b / 2) (by omega)
    omega
  · rw [ha2, hb2]
    simp only [Nat.zero_mul, Nat.one_mul, Nat.xor_zero]
    have h1 : b / 2 < 2 ^ 31 := by omega
    have h2 := hhigh (a / 2) (by omega)
    omega
  · rw [ha2, hb2]
    simp only [Nat.one_mul]
    intro h
    have h3 := xor_cancel_nat (a / 2) (b / 2) 0xEDB88320 h
    omega

theorem crcByteStep_lt (c b : Nat) (hc : c < 2 ^ 32) (hb : b < 2 ^ 32) :
    crcByteStep c b < 2 ^ 32 := by
  unfold crcByteStep
  have h0 : c ^^^ b < 2 ^ 32 := Nat.xor_lt_two_pow hc hb
  exact crcRound_lt _ (crcRound_lt _ (crcRound_lt _ (crcRound_lt _ (crcRound_lt _
    (crcRound_lt _ (crcRound_lt _ (crcRound_lt _ h0)))))))

theorem crcByteStep_inj_state (c1 c2 b : Nat) (h1 : c1 < 2 ^ 32) (h2 : c2 < 2 ^ 32)
    (hb : b < 2 ^ 32) (hne : c1 ≠ c2) : crcByteStep c1 b ≠ crcByteStep c2 b := by
  unfold crcByteStep
  have hx : c1 ^^^ b ≠ c2 ^^^ b := fun h => hne (xor_cancel_nat c1 c2 b h)
  have hx1 : c1 ^^^ b < 2 ^ 32 := Nat.xor_lt_two_pow h1 hb
  have hx2 : c2 ^^^ b < 2 ^ 32 := Nat.xor_lt_two_pow h2 hb
  have r : ∀ a1 a2, a1 < 2 ^ 32 → a2 < 2 ^ 32 → a1 ≠ a2 →
      crcRound a1 ≠ crcRound a2 ∧ crcRound a1 < 2 ^ 32 ∧ crcRound a2 < 2 ^ 32 :=
    fun a1 a2 q1 q2 qne => ⟨crcRound_inj a1 a2 q1 q2 qne, crcRound_lt a1 q1, crcRound_lt a2 q2⟩
  have s1 := r _ _ hx1 hx2 hx
  have s2 := r _ _ s1.2.1 s1.2.2 s1.1
  have s3 := r _ _ s2.2.1 s2.2.2 s2.1
  have s4 := r _ _ s3.2.1 s3.2.2 s3.1
  have s5 := r _ _ s4.2.1 s4.2.2 s4.1
  have s6 := r _ _ s5.2.1 s5.2.2 s5.1
  have s7 := r _ _ s6.2.1 s6.2.2 s6.1
  have s8 := r _ _ s7.2.1 s7.2.2 s7.1
  exact s8.1

theorem crcByteStep_inj_byte (c b1 b2 : Nat) (hc : c < 2 ^ 32) (h1 : b1 < 2 ^ 32)
    (h2 : b2 < 2 ^ 32) (hne : b1 ≠ b2) : crcByteStep c b1 ≠ crcByteStep c b2 := by
  unfold crcByteStep
  have hx : c ^^^ b1 ≠ c ^^^ b2 := by
    intro h
    apply hne
    have h3 := congrArg (fun x => c ^^^ x) h.symm
    simpa [← Nat.xor_assoc, Nat.xor_self, Nat.zero_xor] using h3.symm
  have hx1 : c ^^^ b1 < 2 ^ 32 := Nat.xor_lt_two_pow hc h1
  have hx2 : c ^^^ b2 < 2 ^ 32 := Nat.xor_lt_two_pow hc h2
  have r : ∀ a1 a2, a1 < 2 ^ 32 → a2 < 2 ^ 32 → a1 ≠ a2 →
      crcRound a1 ≠ crcRound a2 ∧ crcRound a1 < 2 ^ 32 ∧ crcRound a2 < 2 ^ 32 :=
    fun a1 a2 q1 q2 qne => ⟨crcRound_inj a1 a2 q1 q2 qne, crcRound_lt a1 q1, crcRound_lt a2 q2⟩
  have s1 := r _ _ hx1 hx2 hx
  have s2 := r _ _ s1.2.1 s1.2.2 s1.1
  have s3 := r _ _ s2.2.1 s2.2.2 s2.1
  have s4 := r _ _ s3.2.1 s3.2.2 s3.1
  have s5 := r _ _ s4.2.1 s4.2.2 s4.1
  have s6 := r _ _ s5.2.1 s5.2.2 s5.1
  have s7 := r _ _ s6.2.1 s6.2.2 s6.1
  have s8 := r _ _ s7.2.1 s7.2.2 s7.1
  exact s8.1

theorem crcFold_lt (l : List Nat) :
    ∀ s, s < 2 ^ 32 → (∀ x ∈ l, x < 256) → l.foldl crcByteStep s < 2 ^ 32 := by
  induction l with
  | nil => intro s hs _; exact hs
  | cons b bs ih =>
      intro s hs hb
      rw [List.foldl_cons]
      exact ih _ (crcByteStep_lt s b hs (by have := hb b (by simp); omega))
        (fun x hx => hb x (by simp [hx]))

theorem crcFold_inj (l : List Nat) :
    ∀ s1 s2, s1 < 2 ^ 32 → s2 < 2 ^ 32 → (∀ x ∈ l, x < 256) → s1 ≠ s2 →
      l.foldl crcByteStep s1 ≠ l.foldl crcByteStep s2 := by
  induction l with
  | nil => intro s1 s2 _ _ _ hne; exact hne
  | cons b bs ih =>
      intro s1 s2 h1 h2 hb hne
      rw [List.foldl_cons, List.foldl_cons]
      have hblt : b < 2 ^ 32 := by have := hb b (by simp); omega
      exact ih _ _ (crcByteStep_lt s1 b h1 hblt) (crcByteStep_lt s2 b h2 hblt)
        (fun x hx => hb x (by simp [hx]))
        (crcByteStep_inj_state s1 s2 b h1 h2 hblt hne)

theorem crc32_ne_of_single_byte (pre suf : List Nat) (b v : Nat)
    (hpre : ∀ x ∈ pre, x < 256) (hsuf : ∀ x ∈ suf, x < 256)
    (hb : b < 256) (hv : v < 256) (hne : b ≠ v) :
    crc32 (pre ++ b :: suf) ≠ crc32 (pre ++ v :: suf) := by
  unfold crc32
  rw [List.foldl_append, List.foldl_append, List.foldl_cons, List.foldl_cons]
  have hs : pre.foldl crcByteStep 0xFFFFFFFF < 2 ^ 32 := crcFold_lt pre _ (by decide) hpre
  have hstep1 : crcByteStep (pre.foldl crcByteStep 0xFFFFFFFF) b < 2 ^ 32 :=
    crcByteStep_lt _ _ hs (by omega)
  have hstep2 : crcByteStep (pre.foldl crcByteStep 0xFFFFFFFF) v < 2 ^ 32 :=
    crcByteStep_lt _ _ hs (by omega)
  have hdiff : crcByteStep (pre.foldl crcByteStep 0xFFFFFFFF) b ≠
      crcByteStep (pre.foldl crcByteStep 0xFFFFFFFF) v :=
    crcByteStep_inj_byte _ b v hs (by omega) (by omega) hne
  have hfold := crcFold_inj suf _ _ hstep1 hstep2 hsuf hdiff
  intro h
  exact hfold (xor_cancel_nat _ _ 0xFFFFFFFF h)

/-- Value of a little-endian byte list (inverse of leBytes). -/
def leVal : List Nat → Nat
  | [] => 0
  | b :: bs => b + 256 * leVal bs

/-- struct.unpack_from value of a byte segment: little endian when the
byte-order flag is 0, big endian otherwise. -/
def segVal (bo : Nat) (l : List Nat) : Nat := if bo = 0 then leVal l else leVal l.reverse

/-- struct.unpack_from of a w-byte unsigned integer at offset off of B. -/
def readUInt (bo : Nat) (B : List Nat) (off w : Nat) : Nat := segVal bo ((B.drop off).take w)

/-- struct.pack_into of a segment at a given offset of a bytearray. -/
def writeAt (off : Nat) (seg buf : List Nat) : List Nat :=
  buf.take off ++ seg ++ buf.drop (off + seg.length)

theorem leBytes_length (w : Nat) : ∀ v, (leBytes w v).length = w := by
  induction w with
  | zero => intro v; rfl
  | succ n ih => intro v; simp [leBytes, ih]

theorem leBytes_lt (w : Nat) : ∀ v, ∀ x ∈ leBytes w v, x < 256 := by
  induction w with
  | zero => intro v x hx; simp [leBytes] at hx
  | succ n ih =>
      intro v x hx
      simp only [leBytes, List.mem_cons] at hx
      rcases hx with h | h
      · omega
      · exact ih _ x h

theorem leVal_leBytes (w : Nat) : ∀ v, leVal (leBytes w v) = v % 256 ^ w := by
  induction w with
  | zero => intro v; simp [leBytes, leVal, Nat.mod_one]
  | succ n ih =>
      intro v
      rw [leBytes, leVal, ih]
      rw [pow_succ, Nat.mul_comm (256 ^ n) 256, Nat.mod_mul]

theorem leBytes_leVal (l : List Nat) (hb : ∀ x ∈ l, x < 256) : leBytes l.length (leVal l) = l := by
  induction l with
  | nil => rfl
  | cons b bs ih =>
      have hblt : b < 256 := hb b (by simp)
      rw [List.length_cons, leVal, leBytes]
      have h1 : (b + 256 * leVal bs) % 256 = b := by omega
      have h2 : (b + 256 * leVal bs) / 256 = leVal bs := by omega
      rw [h1, h2, ih (fun x hx => hb x (by simp [hx]))]

theorem leVal_lt (l : List Nat) (hb : ∀ x ∈ l, x < 256) : leVal l < 256 ^ l.length := by
  induction l with
  | nil => simp [leVal]
  | cons b bs ih =>
      have hblt : b < 256 := hb b (by simp)
      have h2 := ih (fun x hx => hb x (by simp [hx]))
      rw [leVal, List.length_cons, pow_succ]
      have h3 : 256 * leVal bs + 256 ≤ 256 * 256 ^ bs.length := by omega
      omega

theorem leVal_inj (l1 l2 : List Nat) (hlen : l1.length = l2.length)
    (h1 : ∀ x ∈ l1, x < 256) (h2 : ∀ x ∈ l2, x < 256) (h : leVal l1 = leVal l2) : l1 = l2 := by
  have e1 := leBytes_leVal l1 h1
  have e2 := leBytes_leVal l2 h2
  rw [← e1, ← e2, hlen, h]

theorem segVal_lt (bo : Nat) (l : List Nat) (hb : ∀ x ∈ l, x < 256) :
    segVal bo l < 256 ^ l.length := by
  unfold segVal
  split
  · exact leVal_lt l hb
  · have := leVal_lt l.reverse (fun x hx => hb x (List.mem_reverse.mp hx))
    rwa [List.length_reverse] at this

theorem segVal_inj (bo : Nat) (l1 l2 : List Nat) (hlen : l1.length = l2.length)
    (h1 : ∀ x ∈ l1, x < 256) (h2 : ∀ x ∈ l2, x < 256) (h : segVal bo l1 = segVal bo l2) :
    l1 = l2 := by
  unfold segVal at h
  split at h
  · exact leVal_inj l1 l2 hlen h1 h2 h
  · have := leVal_inj l1.reverse l2.reverse (by simp [hlen])
      (fun x hx => h1 x (List.mem_reverse.mp hx)) (fun x hx => h2 x (List.mem_reverse.mp hx)) h
    have h3 := congrArg List.reverse this
    simpa using h3

theorem packUInt_length (bo w v : Nat) : (packUInt bo w v).length = w := by
  unfold packUInt
  split <;> simp [leBytes_length]

theorem packUInt_lt (bo w v : Nat) : ∀ x ∈ packUInt bo w v, x < 256 := by
  unfold packUInt
  split
  · exact leBytes_lt w v
  · intro x hx
    exact leBytes_lt w v x (List.mem_reverse.mp hx)

theorem packUInt_segVal (bo : Nat) (l : List Nat) (hb : ∀ x ∈ l, x < 256) :
    packUInt bo l.length (segVal bo l) = l := by
  unfold packUInt segVal
  split
  · exact leBytes_leVal l hb
  · have h1 : leBytes l.reverse.length (leVal l.reverse) = l.reverse :=
      leBytes_leVal l.reverse (fun x hx => hb x (List.mem_reverse.mp hx))
    rw [List.length_reverse] at h1
    rw [h1, List.reverse_reverse]

/-- The fixed 16-byte archive signature, b"DBP-OTIK-HFHM" plus three zero
bytes. -/
def hSignature : List Nat :=
  [0x44, 0x42, 0x50, 0x2D, 0x4F, 0x54, 0x49, 0x4B, 0x2D, 0x48, 0x46, 0x48, 0x4D, 0, 0, 0]

/-- The ArchiveHeader dataclass; reserved and code_table are byte lists. -/
structure ArchiveHeader where
  version : Nat
  flags : Nat
  archive_size : Nat
  data_crc32 : Nat
  header_crc32 : Nat
  bytes_order : Nat
  align : Nat
  file_count : Nat
  data_section_offset : Nat
  index_section_offset : Nat
  reserved : List Nat
  code_table : List Nat

/-- ArchiveHeader.validate_header; every raise is modelled as false (the
header_crc32 lower bound is commented out in the source and so not checked
here either). -/
def validateArchiveHeader (H : ArchiveHeader) : Bool :=
  if H.data_crc32 < 1 then false
  else if H.data_section_offset < 352 then false
  else if H.version ≠ 5 then false
  else if H.file_count > 10000 then false
  else if H.index_section_offset ≠ 0 ∧ H.index_section_offset < H.data_section_offset then false
  else if H.reserved ≠ List.replicate 36 0 then false
  else if H.code_table.length < 256 then false
  else if H.archive_size < 352 ∨
      H.archive_size > 352 + H.file_count * (0x111 + 30) + H.file_count * (2 <<< 30) then false
  else true

/-- The serialization body of ArchiveHeader.to_bytes: pack_into calls on a
96-byte zero buffer at the source's offsets and order (version at 16 and
flags at 18 overlap), then the slice assignment of reserved over 60..95,
then the code table appended. -/
def buildHeaderBytes (H : ArchiveHeader) : List Nat :=
  let bo := H.bytes_order
  let b1 := writeAt 0 hSignature (List.replicate 96 0)
  let b2 := writeAt 16 (packUInt bo 4 H.version) b1
  let b3 := writeAt 18 (packUInt bo 4 H.flags) b2
  let b4 := writeAt 22 (packUInt bo 8 H.archive_size) b3
  let b5 := writeAt 30 (packUInt bo 4 H.data_crc32) b4
  let b6 := writeAt 34 (packUInt bo 4 H.header_crc32) b5
  let b7 := writeAt 38 [H.bytes_order &&& 0xFF] b6
  let b8 := writeAt 39 [H.align &&& 0xFF] b7
  let b9 := writeAt 40 (packUInt bo 4 H.file_count) b8
  let b10 := writeAt 44 (packUInt bo 8 H.data_section_offset) b9
  let b11 := writeAt 52 (packUInt bo 8 H.index_section_offset) b10
  (b11.take 60 ++ H.reserved ++ b11.drop 96) ++ H.code_table

/-- ArchiveHeader.to_bytes: validates, checks the code-table length, and
serializes; struct.pack_into raises on a value outside the packed width, so
out-of-range fields also yield none. -/
def archiveHeaderToBytes (H : ArchiveHeader) : Option (List Nat) :=
  if validateArchiveHeader H = false then none
  else if H.code_table.length ≠ 256 then none
  else if H.version < 2 ^ 32 ∧ H.flags < 2 ^ 32 ∧ H.archive_size < 2 ^ 64 ∧
      H.data_crc32 < 2 ^ 32 ∧ H.header_crc32 < 2 ^ 32 ∧ H.file_count < 2 ^ 32 ∧
      H.data_section_offset < 2 ^ 64 ∧ H.index_section_offset < 2 ^ 64 then
    some (buildHeaderBytes H)
  else none

/-- The header record ArchiveHeader.from_bytes builds from the first 352
bytes: each field is unpacked at its offset with the endianness taken from
byte 38; align is not parsed (it keeps its default 0xFF), reserved is
header[60:96] and the code table is bytes 96..351. -/
def parsedHeader (B : List Nat) : ArchiveHeader :=
  let header := B.take 96
  let bo := header.getD 38 0
  ArchiveHeader.mk (readUInt bo header 16 4) (readUInt bo header 18 4)
    (readUInt bo header 22 8) (readUInt bo header 30 4) (readUInt bo header 34 4)
    bo 0xFF (readUInt bo header 40 4) (readUInt bo header 44 8) (readUInt bo header 52 8)
    (header.drop 60) ((B.drop 96).take 256)

/-- ArchiveHeader.from_bytes: length guard, field extraction, then
validate_header (raising, i.e. none, when it fails). -/
def archiveHeaderFromBytes (B : List Nat) : Option ArchiveHeader :=
  if B.length < 352 then none
  else if validateArchiveHeader (parsedHeader B) then some (parsedHeader B) else none

/-- ArchiveHeader.compute_header_crc32: serializes, zeroes the four
header_crc32 bytes at offset 34, and takes zlib.crc32 of the first 352
bytes; to_bytes raising propagates as none. -/
def computeHeaderCrc32 (H : ArchiveHeader) : Option Nat :=
  (archiveHeaderToBytes H).map (fun b => crc32 ((writeAt 34 [0, 0, 0, 0] b).take 352))

/-- ArchiveHeader.validate_crc32: true when the stored header_crc32 equals
the recomputed one; the mismatch ValueError (and any error from to_bytes)
is modelled as false. -/
def headerCrcChecked (H : ArchiveHeader) : Bool :=
  match computeHeaderCrc32 H with
  | none => false
  | some c => H.header_crc32 == c

/-- Reading an archive's meta region back and verifying its checksum:
ArchiveHeader.from_bytes followed by validate_crc32, any raise giving
false. -/
def parseAndCheckHeader (B : List Nat) : Bool :=
  match archiveHeaderFromBytes B with
  | none => false
  | some H => headerCrcChecked H

theorem hSignature_length : hSignature.length = 16 := rfl

theorem writeAt_step (off : Nat) (pre old rest seg : List Nat) (hpre : pre.length = off)
    (hold : old.length = seg.length) :
    writeAt off seg (pre ++ old ++ rest) = pre ++ seg ++ rest := by
  subst hpre
  unfold writeAt
  have h1 : (pre ++ old ++ rest).take pre.length = pre := by
    rw [List.append_assoc]
    exact List.take_left pre (old ++ rest)
  have h2 : (pre ++ old ++ rest).drop (pre.length + seg.length) = rest :=
    List.drop_left' (by rw [List.length_append, hold])
  rw [h1, h2]

theorem writeAt_boundary (off w rest len : Nat) (pre seg : List Nat)
    (hpre : pre.length = off) (hseg : seg.length = w) (hlen : len = w + rest) :
    writeAt off seg (pre ++ List.replicate len 0) = pre ++ seg ++ List.replicate rest 0 := by
  have hb : pre ++ List.replicate len (0 : Nat) =
      pre ++ List.replicate w 0 ++ List.replicate rest 0 := by
    rw [List.append_assoc, ← List.replicate_add, hlen]
  rw [hb]
  exact writeAt_step off pre _ _ seg hpre (by simp [hseg])

theorem reserved_splice (P R T : List Nat) (h : P.length = 60) :
    (P ++ List.replicate 36 0).take 60 ++ R ++ (P ++ List.replicate 36 0).drop 96 ++ T =
      P ++ R ++ T := by
  rw [List.take_left' h, List.drop_eq_nil_iff.mpr (by simp [h]), List.append_nil]

/-- The result of the pack_into chain in to_bytes, written as one
concatenation: bytes 18..19 of the version field are overwritten by the
flags field, so only the first two packed version bytes survive. -/
theorem buildHeaderBytes_eq (H : ArchiveHeader) :
    buildHeaderBytes H =
      hSignature ++ (packUInt H.bytes_order 4 H.version).take 2 ++
        packUInt H.bytes_order 4 H.flags ++ packUInt H.bytes_order 8 H.archive_size ++
        packUInt H.bytes_order 4 H.data_crc32 ++ packUInt H.bytes_order 4 H.header_crc32 ++
        [H.bytes_order &&& 255] ++ [H.align &&& 255] ++ packUInt H.bytes_order 4 H.file_count ++
        packUInt H.bytes_order 8 H.data_section_offset ++
        packUInt H.bytes_order 8 H.index_section_offset ++ H.reserved ++ H.code_table := by
  simp only [buildHeaderBytes]
  rw [show writeAt 0 hSignature (List.replicate 96 0) = hSignature ++ List.replicate 80 0 from
    rfl]
  rw [writeAt_boundary 16 4 76 80 hSignature _ hSignature_length (packUInt_length _ _ _) rfl]
  have hsplit : hSignature ++ packUInt H.bytes_order 4 H.version ++ List.replicate 76 (0:Nat) =
      (hSignature ++ (packUInt H.bytes_order 4 H.version).take 2) ++
        ((packUInt H.bytes_order 4 H.version).drop 2 ++ List.replicate 2 0) ++
        List.replicate 74 0 := by
    have h76 : List.replicate 76 (0:Nat) = List.replicate 2 0 ++ List.replicate 74 0 := by
      rw [← List.replicate_add]
    conv_lhs => rw [← List.take_append_drop 2 (packUInt H.bytes_order 4 H.version), h76]
    simp only [List.append_assoc]
  rw [hsplit]
  rw [writeAt_step 18 _ _ _ _
    (by simp [hSignature_length, packUInt_length]) (by simp [packUInt_length])]
  rw [writeAt_boundary 22 8 66 74 _ _
    (by simp [hSignature_length, packUInt_length]) (packUInt_length _ _ _) rfl]
  rw [writeAt_boundary 30 4 62 66 _ _
    (by simp [hSignature_length, packUInt_length]) (packUInt_length _ _ _) rfl]
  rw [writeAt_boundary 34 4 58 62 _ _
    (by simp [hSignature_length, packUInt_length]) (packUInt_length _ _ _) rfl]
  rw [writeAt_boundary 38 1 57 58 _ [H.bytes_order &&& 255]
    (by simp [hSignature_length, packUInt_length]) rfl rfl]
  rw [writeAt_boundary 39 1 56 57 _ [H.align &&& 255]
    (by simp [hSignature_length, packUInt_length]) rfl rfl]
  rw [writeAt_boundary 40 4 52 56 _ _
    (by simp [hSignature_length, packUInt_length]) (packUInt_length _ _ _) rfl]
  rw [writeAt_boundary 44 8 44 52 _ _
    (by simp [hSignature_length, packUInt_length]) (packUInt_length _ _ _) rfl]
  rw [writeAt_boundary 52 8 36 44 _ _
    (by simp [hSignature_length, packUInt_length]) (packUInt_length _ _ _) rfl]
  rw [reserved_splice _ _ _ (by simp [hSignature_length, packUInt_length])]

theorem take96_seg (B : List Nat) (off w : Nat) (h : off + w ≤ 96) :
    ((B.take 96).drop off).take w = (B.drop off).take w := by
  rw [List.drop_take, List.take_take]
  congr 1
  omega

theorem pack_read (B : List Nat) (bo off w : Nat) (hlen : B.length = 352)
    (hb : ∀ x ∈ B, x < 256) (h : off + w ≤ 352) :
    packUInt bo w (segVal bo ((B.drop off).take w)) = (B.drop off).take w := by
  have hl : ((B.drop off).take w).length = w := by
    rw [List.length_take, List.length_drop, hlen]
    omega
  have h2 := packUInt_segVal bo ((B.drop off).take w)
    (fun x hx => hb x (List.mem_of_mem_drop (List.mem_of_mem_take hx)))
  rwa [hl] at h2

theorem seg_merge (l : List Nat) (o w u o2 s : Nat) (h2 : o2 = o + w) (hs : s = w + u) :
    (l.drop o).take w ++ (l.drop o2).take u = (l.drop o).take s := by
  subst h2 hs
  rw [List.take_add]
  congr 2
  rw [List.drop_drop, Nat.add_comm]

theorem seg_merge_assoc (l rest : List Nat) (o w u o2 s : Nat) (h2 : o2 = o + w)
    (hs : s = w + u) :
    (l.drop o).take w ++ ((l.drop o2).take u ++ rest) = (l.drop o).take s ++ rest := by
  rw [← List.append_assoc, seg_merge l o w u o2 s h2 hs]

theorem and255_eq (x : Nat) (h : x < 256) : x &&& 255 = x := by
  have h2 : x &&& 2 ^ 8 - 1 = x := Nat.and_pow_two_sub_one_of_lt_two_pow (by omega)
  simpa using h2

theorem getD_lt_256 (l : List Nat) (hb : ∀ x ∈ l, x < 256) (n : Nat) : l.getD n 0 < 256 := by
  rw [List.getD_eq_getElem?_getD]
  cases h : l[n]? with
  | none => simp
  | some a =>
      simp only [Option.getD_some]
      exact hb a (List.getElem?_mem h)

theorem getD_take96 (B : List Nat) (hlen : B.length = 352) :
    (B.take 96).getD 38 0 = B.getD 38 0 := by
  rw [List.getD_eq_getElem?_getD, List.getD_eq_getElem?_getD, List.getElem?_take_of_lt (by omega)]

/-- Serializing the header parsed from a 352-byte meta buffer reproduces the
buffer except that the 16 signature bytes and the align byte at offset 39
are rewritten to their fixed values. -/
theorem build_parsed (B : List Nat) (hlen : B.length = 352) (hb : ∀ x ∈ B, x < 256) :
    buildHeaderBytes (parsedHeader B) =
      (hSignature ++ (B.drop 16).take 18) ++ (B.drop 34).take 4 ++
        ([B.getD 38 0] ++ [255] ++ B.drop 40) := by
  rw [buildHeaderBytes_eq]
  simp only [parsedHeader, readUInt]
  rw [getD_take96 B hlen]
  rw [take96_seg B 16 4 (by omega), take96_seg B 18 4 (by omega), take96_seg B 22 8 (by omega),
    take96_seg B 30 4 (by omega), take96_seg B 34 4 (by omega), take96_seg B 40 4 (by omega),
    take96_seg B 44 8 (by omega), take96_seg B 52 8 (by omega)]
  rw [pack_read B _ 16 4 hlen hb (by omega), pack_read B _ 18 4 hlen hb (by omega),
    pack_read B _ 22 8 hlen hb (by omega), pack_read B _ 30 4 hlen hb (by omega),
    pack_read B _ 34 4 hlen hb (by omega), pack_read B _ 40 4 hlen hb (by omega),
    pack_read B _ 44 8 hlen hb (by omega), pack_read B _ 52 8 hlen hb (by omega)]
  have hvt : ((B.drop 16).take 4).take 2 = (B.drop 16).take 2 := by
    rw [List.take_take]
    congr 1
  have hand : B.getD 38 0 &&& 255 = B.getD 38 0 := and255_eq _ (getD_lt_256 B hb 38)
  have hand2 : (255 : Nat) &&& 255 = 255 := rfl
  have hres : (B.take 96).drop 60 = (B.drop 60).take 36 := by
    rw [List.drop_take]
  rw [hvt, hand, hand2, hres]
  simp only [List.append_assoc]
  rw [seg_merge_assoc B _ 16 2 4 18 6 rfl rfl, seg_merge_assoc B _ 16 6 8 22 14 rfl rfl,
    seg_merge_assoc B _ 16 14 4 30 18 rfl rfl]
  rw [seg_merge_assoc B _ 40 4 8 44 12 rfl rfl, seg_merge_assoc B _ 40 12 8 52 20 rfl rfl,
    seg_merge_assoc B _ 40 20 36 60 56 rfl rfl, seg_merge B 40 56 256 96 312 rfl rfl]
  rw [List.take_of_length_le (show (B.drop 40).length ≤ 312 by rw [List.length_drop, hlen])]

/-- The 352 bytes whose crc32 compute_header_crc32 takes, for a header
parsed back from buffer B: B with the signature and align byte
re-canonicalized and the four stored-checksum bytes zeroed. -/
def zeroedMeta (B : List Nat) : List Nat :=
  (hSignature ++ (B.drop 16).take 18) ++ [0, 0, 0, 0] ++ ([B.getD 38 0] ++ [255] ++ B.drop 40)

theorem zeroed_build_parsed (B : List Nat) (hlen : B.length = 352) (hb : ∀ x ∈ B, x < 256) :
    writeAt 34 [0, 0, 0, 0] (buildHeaderBytes (parsedHeader B)) = zeroedMeta B := by
  rw [build_parsed B hlen hb]
  unfold zeroedMeta
  exact writeAt_step 34 _ _ _ _
    (by simp [hSignature_length, List.length_take, List.length_drop, hlen])
    (by simp [List.length_take, List.length_drop, hlen])

theorem zeroedMeta_length (B : List Nat) (hlen : B.length = 352) :
    (zeroedMeta B).length = 352 := by
  simp [zeroedMeta, hSignature_length, List.length_take, List.length_drop, hlen]

theorem zeroedMeta_bytes (B : List Nat) (hb : ∀ x ∈ B, x < 256) :
    ∀ x ∈ zeroedMeta B, x < 256 := by
  intro x hx
  unfold zeroedMeta at hx
  rcases List.mem_append.mp hx with h | h
  · rcases List.mem_append.mp h with h2 | h2
    · rcases List.mem_append.mp h2 with h3 | h3
      · exact (by decide : ∀ y ∈ hSignature, y < 256) x h3
      · exact hb x (List.mem_of_mem_drop (List.mem_of_mem_take h3))
    · have hz : x = 0 := by simpa using h2
      omega
  · rcases List.mem_append.mp h with h2 | h2
    · rcases List.mem_append.mp h2 with h3 | h3
      · have hz : x = B.getD 38 0 := by simpa using h3
        rw [hz]
        exact getD_lt_256 B hb 38
      · have hz : x = 255 := by simpa using h3
        omega
    · exact hb x (List.mem_of_mem_drop h2)

theorem read_lt (B : List Nat) (bo off w : Nat) (hw : ((B.drop off).take w).length = w)
    (hb : ∀ x ∈ B, x < 256) : segVal bo ((B.drop off).take w) < 256 ^ w := by
  have h := segVal_lt bo ((B.drop off).take w)
    (fun x hx => hb x (List.mem_of_mem_drop (List.mem_of_mem_take hx)))
  rwa [hw] at h

theorem computeHeaderCrc32_parsed (B : List Nat) (hlen : B.length = 352)
    (hb : ∀ x ∈ B, x < 256) (hval : validateArchiveHeader (parsedHeader B) = true) :
    computeHeaderCrc32 (parsedHeader B) = some (crc32 (zeroedMeta B)) := by
  have hct : (parsedHeader B).code_table.length = 256 := by
    simp [parsedHeader, List.length_take, List.length_drop, hlen]
  have hw : ∀ off w : Nat, off + w ≤ 352 → ((B.drop off).take w).length = w := by
    intro off w h
    rw [List.length_take, List.length_drop, hlen]
    omega
  have hbo4 : ∀ off : Nat, off + 4 ≤ 96 →
      readUInt ((B.take 96).getD 38 0) (B.take 96) off 4 < 2 ^ 32 := by
    intro off h
    unfold readUInt
    rw [take96_seg B off 4 (by omega)]
    have := read_lt B ((B.take 96).getD 38 0) off 4 (hw off 4 (by omega)) hb
    norm_num at this ⊢
    exact this
  have hbo8 : ∀ off : Nat, off + 8 ≤ 96 →
      readUInt ((B.take 96).getD 38 0) (B.take 96) off 8 < 2 ^ 64 := by
    intro off h
    unfold readUInt
    rw [take96_seg B off 8 (by omega)]
    have := read_lt B ((B.take 96).getD 38 0) off 8 (hw off 8 (by omega)) hb
    norm_num at this ⊢
    exact this
  unfold computeHeaderCrc32 archiveHeaderToBytes
  rw [hval]
  simp only [Bool.true_eq_false, if_false, hct]
  rw [if_neg (by omega)]
  rw [if_pos ?bounds]
  case bounds =>
    refine ⟨?_, ?_, ?_, ?_, ?_, ?_, ?_, ?_⟩
    · exact hbo4 16 (by omega)
    · exact hbo4 18 (by omega)
    · exact hbo8 22 (by omega)
    · exact hbo4 30 (by omega)
    · exact hbo4 34 (by omega)
    · exact hbo4 40 (by omega)
    · exact hbo8 44 (by omega)
    · exact hbo8 52 (by omega)
  rw [Option.map_some']
  rw [zeroed_build_parsed B hlen hb,
    List.take_of_length_le (le_of_eq (zeroedMeta_length B hlen))]

theorem parse_eq (B : List Nat) (hlen : B.length = 352) :
    archiveHeaderFromBytes B =
      if validateArchiveHeader (parsedHeader B) then some (parsedHeader B) else none := by
  unfold archiveHeaderFromBytes
  rw [if_neg (by omega)]

theorem parseAndCheck_eq (B : List Nat) (hlen : B.length = 352) (hb : ∀ x ∈ B, x < 256) :
    parseAndCheckHeader B =
      if validateArchiveHeader (parsedHeader B) then
        ((parsedHeader B).header_crc32 == crc32 (zeroedMeta B))
      else false := by
  unfold parseAndCheckHeader
  rw [parse_eq B hlen]
  by_cases hval : validateArchiveHeader (parsedHeader B) = true
  · rw [if_pos hval, if_pos hval]
    show headerCrcChecked (parsedHeader B) = _
    unfold headerCrcChecked
    rw [computeHeaderCrc32_parsed B hlen hb hval]
  · rw [if_neg hval, if_neg hval]

theorem validate_version (H : ArchiveHeader) (h : validateArchiveHeader H = true) :
    H.version = 5 := by
  unfold validateArchiveHeader at h
  split_ifs at h <;> first | omega | simp at h

theorem stored_eq (X : List Nat) (hlenX : X.length = 352) :
    (parsedHeader X).header_crc32 = segVal (X.getD 38 0) ((X.drop 34).take 4) := by
  simp only [parsedHeader, readUInt]
  rw [getD_take96 X hlenX, take96_seg X 34 4 (by omega)]

theorem parsed_version_eq (X : List Nat) (hlenX : X.length = 352) :
    (parsedHeader X).version = segVal (X.getD 38 0) ((X.drop 16).take 4) := by
  simp only [parsedHeader, readUInt]
  rw [getD_take96 X hlenX, take96_seg X 16 4 (by omega)]

theorem set_bytes (B : List Nat) (p v : Nat) (hv : v < 256) (hb : ∀ x ∈ B, x < 256) :
    ∀ x ∈ B.set p v, x < 256 := by
  intro x hx
  rcases List.mem_or_eq_of_mem_set hx with h | h
  · exact hb x h
  · omega

theorem seg_set_outside (B : List Nat) (p v o w : Nat) (h : p < o ∨ o + w ≤ p) :
    ((B.set p v).drop o).take w = (B.drop o).take w := by
  rcases h with h | h
  · rw [List.drop_set, if_pos h]
  · rw [List.drop_set, if_neg (by omega), List.set_take, List.set_eq_of_length_le]
    exact le_trans (List.length_take_le w _) (by omega)

theorem seg_set_inside (B : List Nat) (p v o w : Nat) (h1 : o ≤ p) (h2 : p < o + w) :
    ((B.set p v).drop o).take w = ((B.drop o).take w).set (p - o) v := by
  rw [List.drop_set, if_neg (by omega), List.set_take]

theorem getD_set_ne_idx (B : List Nat) (p v n : Nat) (h : p ≠ n) :
    (B.set p v).getD n 0 = B.getD n 0 := by
  rw [List.getD_eq_getElem?_getD, List.getD_eq_getElem?_getD, List.getElem?_set_ne h]

theorem getD_set_self_idx (B : List Nat) (p v : Nat) (h : p < B.length) :
    (B.set p v).getD p 0 = v := by
  rw [List.getD_eq_getElem?_getD, List.getElem?_set_self h]
  rfl

theorem seg_getD (B : List Nat) (o w i : Nat) (h : i < w) :
    ((B.drop o).take w).getD i 0 = B.getD (o + i) 0 := by
  rw [List.getD_eq_getElem?_getD, List.getD_eq_getElem?_getD, List.getElem?_take_of_lt h,
    List.getElem?_drop]

theorem getD_split (l : List Nat) (i : Nat) (h : i < l.length) :
    l = l.take i ++ l.getD i 0 :: l.drop (i + 1) := by
  conv_lhs => rw [← List.take_append_drop i l, List.drop_eq_getElem_cons h]
  rw [List.getD_eq_getElem?_getD, List.getElem?_eq_getElem h]
  rfl

theorem take_bytes_lt (l : List Nat) (h : ∀ x ∈ l, x < 256) (n : Nat) :
    ∀ x ∈ l.take n, x < 256 := fun x hx => h x (List.mem_of_mem_take hx)

theorem drop_bytes_lt (l : List Nat) (h : ∀ x ∈ l, x < 256) (n : Nat) :
    ∀ x ∈ l.drop n, x < 256 := fun x hx => h x (List.mem_of_mem_drop hx)

theorem append_bytes_lt (l1 l2 : List Nat) (h1 : ∀ x ∈ l1, x < 256)
    (h2 : ∀ x ∈ l2, x < 256) : ∀ x ∈ l1 ++ l2, x < 256 := by
  intro x hx
  rcases List.mem_append.mp hx with h | h
  · exact h1 x h
  · exact h2 x h

theorem cons_bytes_lt (a : Nat) (l : List Nat) (ha : a < 256) (h : ∀ x ∈ l, x < 256) :
    ∀ x ∈ a :: l, x < 256 := by
  intro x hx
  rcases List.mem_cons.mp hx with h2 | h2
  · omega
  · exact h x h2

theorem drop_getD (B : List Nat) (o j : Nat) : (B.drop o).getD j 0 = B.getD (o + j) 0 := by
  rw [List.getD_eq_getElem?_getD, List.getD_eq_getElem?_getD, List.getElem?_drop]

theorem zeroedMeta_set_mid (B : List Nat) (p v : Nat) (h1 : 34 ≤ p) (h2 : p < 38) :
    zeroedMeta (B.set p v) = zeroedMeta B := by
  unfold zeroedMeta
  rw [seg_set_outside B p v 16 18 (by omega), getD_set_ne_idx B p v 38 (by omega),
    List.drop_set, if_pos (by omega)]

/-- A modification of one byte at a position reproduced verbatim inside the
zeroed meta region (positions 16..33, 38, and 40..351) changes the crc32 of
that region. -/
theorem zeroedMeta_crc_ne (B : List Nat) (p v : Nat) (hlen : B.length = 352)
    (hb : ∀ x ∈ B, x < 256) (hv : v < 256) (hne : v ≠ B.getD p 0)
    (hp : (16 ≤ p ∧ p < 34) ∨ p = 38 ∨ (40 ≤ p ∧ p < 352)) :
    crc32 (zeroedMeta (B.set p v)) ≠ crc32 (zeroedMeta B) := by
  have hsig : ∀ x ∈ hSignature, x < 256 := by decide
  have hz4 : ∀ x ∈ ([0, 0, 0, 0] : List Nat), x < 256 := by decide
  have h38 : B.getD 38 0 < 256 := getD_lt_256 B hb 38
  have hpB : B.getD p 0 < 256 := getD_lt_256 B hb p
  rcases hp with ⟨ha, hb2⟩ | ha | ⟨ha, hb2⟩
  · -- p in the 16..33 window kept as B.drop 16 |>.take 18
    have hlen18 : ((B.drop 16).take 18).length = 18 := by
      rw [List.length_take, List.length_drop, hlen]
      omega
    have hi : p - 16 < 18 := by omega
    have e1 : zeroedMeta B =
        (hSignature ++ ((B.drop 16).take 18).take (p - 16)) ++ B.getD p 0 ::
          (((B.drop 16).take 18).drop (p - 16 + 1) ++
            ([0, 0, 0, 0] ++ ([B.getD 38 0] ++ ([255] ++ B.drop 40)))) := by
      unfold zeroedMeta
      conv_lhs => rw [getD_split ((B.drop 16).take 18) (p - 16) (by omega)]
      rw [seg_getD B 16 18 (p - 16) hi, show 16 + (p - 16) = p from by omega]
      simp [List.append_assoc]
    have e2 : zeroedMeta (B.set p v) =
        (hSignature ++ ((B.drop 16).take 18).take (p - 16)) ++ v ::
          (((B.drop 16).take 18).drop (p - 16 + 1) ++
            ([0, 0, 0, 0] ++ ([B.getD 38 0] ++ ([255] ++ B.drop 40)))) := by
      unfold zeroedMeta
      rw [seg_set_inside B p v 16 18 (by omega) (by omega),
        getD_set_ne_idx B p v 38 (by omega), List.drop_set, if_pos (by omega),
        List.set_eq_take_cons_drop v (by omega)]
      simp [List.append_assoc]
    rw [e1, e2]
    refine crc32_ne_of_single_byte _ _ v (B.getD p 0) ?_ ?_ hv hpB hne
    · exact append_bytes_lt _ _ hsig
        (take_bytes_lt _ (take_bytes_lt _ (drop_bytes_lt _ hb 16) 18) _)
    · refine append_bytes_lt _ _
        (drop_bytes_lt _ (take_bytes_lt _ (drop_bytes_lt _ hb 16) 18) _) ?_
      refine append_bytes_lt _ _ hz4 ?_
      refine append_bytes_lt _ _ (cons_bytes_lt _ _ h38 (by simp)) ?_
      exact append_bytes_lt _ _ (by decide) (drop_bytes_lt _ hb 40)
  · -- p = 38, the byte-order byte itself
    subst ha
    have e1 : zeroedMeta B =
        (hSignature ++ (B.drop 16).take 18 ++ [0, 0, 0, 0]) ++ B.getD 38 0 ::
          (255 :: B.drop 40) := by
      unfold zeroedMeta
      simp [List.append_assoc]
    have e2 : zeroedMeta (B.set 38 v) =
        (hSignature ++ (B.drop 16).take 18 ++ [0, 0, 0, 0]) ++ v ::
          (255 :: B.drop 40) := by
      unfold zeroedMeta
      rw [seg_set_outside B 38 v 16 18 (by omega),
        getD_set_self_idx B 38 v (by omega), List.drop_set, if_pos (by omega)]
      simp [List.append_assoc]
    rw [e1, e2]
    refine crc32_ne_of_single_byte _ _ v (B.getD 38 0) ?_ ?_ hv h38 hne
    · exact append_bytes_lt _ _
        (append_bytes_lt _ _ hsig (take_bytes_lt _ (drop_bytes_lt _ hb 16) 18)) hz4
    · exact cons_bytes_lt _ _ (by omega) (drop_bytes_lt _ hb 40)
  · -- p in the tail kept as B.drop 40
    have hlen40 : (B.drop 40).length = 312 := by rw [List.length_drop, hlen]
    have hj : p - 40 < 312 := by omega
    have e1 : zeroedMeta B =
        (hSignature ++ (B.drop 16).take 18 ++ [0, 0, 0, 0] ++ [B.getD 38 0] ++ [255] ++
          (B.drop 40).take (p - 40)) ++ B.getD p 0 :: (B.drop 40).drop (p - 40 + 1) := by
      unfold zeroedMeta
      conv_lhs => rw [getD_split (B.drop 40) (p - 40) (by omega)]
      rw [drop_getD B 40 (p - 40), show 40 + (p - 40) = p from by omega]
      simp [List.append_assoc]
    have e2 : zeroedMeta (B.set p v) =
        (hSignature ++ (B.drop 16).take 18 ++ [0, 0, 0, 0] ++ [B.getD 38 0] ++ [255] ++
          (B.drop 40).take (p - 40)) ++ v :: (B.drop 40).drop (p - 40 + 1) := by
      unfold zeroedMeta
      rw [seg_set_outside B p v 16 18 (by omega), getD_set_ne_idx B p v 38 (by omega),
        List.drop_set, if_neg (by omega), List.set_eq_take_cons_drop v (by omega)]
      simp [List.append_assoc]
    rw [e1, e2]
    refine crc32_ne_of_single_byte _ _ v (B.getD p 0) ?_ ?_ hv hpB hne
    · refine append_bytes_lt _ _ ?_ (take_bytes_lt _ (drop_bytes_lt _ hb 40) _)
      refine append_bytes_lt _ _ ?_ (by decide)
      refine append_bytes_lt _ _ ?_ (cons_bytes_lt _ _ h38 (by simp))
      exact append_bytes_lt _ _
        (append_bytes_lt _ _ hsig (take_bytes_lt _ (drop_bytes_lt _ hb 16) 18)) hz4
    · exact drop_bytes_lt _ (drop_bytes_lt _ hb 40) _

theorem leVal_five_flip (seg : List Nat) (hlen4 : seg.length = 4)
    (hb : ∀ x ∈ seg, x < 256) (h0 : leVal seg = 5) : leVal seg.reverse = 83886080 := by
  have h := leBytes_leVal seg hb
  rw [hlen4, h0] at h
  rw [← h]
  rfl

theorem leVal_five_flip_rev (seg : List Nat) (hlen4 : seg.length = 4)
    (hb : ∀ x ∈ seg, x < 256) (h0 : leVal seg.reverse = 5) : leVal seg = 83886080 := by
  have hbrev : ∀ x ∈ seg.reverse, x < 256 := fun x hx => hb x (List.mem_reverse.mp hx)
  have h := leBytes_leVal seg.reverse hbrev
  rw [List.length_reverse, hlen4, h0] at h
  have h2 := congrArg List.reverse h
  rw [List.reverse_reverse] at h2
  rw [← h2]
  rfl

/-- C7, amended: a single-byte modification at any position of the meta
region other than the unparsed signature bytes 0..15 and the unparsed align
byte 39 is always caught - re-parsing either fails validation or leaves a
stored header_crc32 that no longer matches the recomputed one. -/
theorem c7_single_byte_tamper_amended (B : List Nat) (p v : Nat)
    (hlen : B.length = 352) (hbytes : ∀ x ∈ B, x < 256)
    (hok : parseAndCheckHeader B = true)
    (hp1 : 16 ≤ p) (hp2 : p < 352) (hp3 : p ≠ 39)
    (hv : v < 256) (hne : v ≠ B.getD p 0) :
    parseAndCheckHeader (B.set p v) = false := by
  have hlen2 : (B.set p v).length = 352 := by rw [List.length_set, hlen]
  have hb2 : ∀ x ∈ B.set p v, x < 256 := set_bytes B p v hv hbytes
  rw [parseAndCheck_eq B hlen hbytes] at hok
  rw [parseAndCheck_eq _ hlen2 hb2]
  by_cases hval : validateArchiveHeader (parsedHeader B) = true
  case neg => rw [if_neg hval] at hok; simp at hok
  rw [if_pos hval] at hok
  have hstored : (parsedHeader B).header_crc32 = crc32 (zeroedMeta B) :=
    eq_of_beq hok
  by_cases hval2 : validateArchiveHeader (parsedHeader (B.set p v)) = true
  case neg => rw [if_neg hval2]
  rw [if_pos hval2]
  rw [beq_eq_false_iff_ne]
  have hseg4len : ((B.drop 34).take 4).length = 4 := by
    rw [List.length_take, List.length_drop, hlen]
    omega
  have hseg4b : ∀ x ∈ (B.drop 34).take 4, x < 256 :=
    take_bytes_lt _ (drop_bytes_lt _ hbytes 34) 4
  by_cases hmid : 34 ≤ p ∧ p < 38
  · -- the four stored-checksum bytes: the stored value changes, the
    -- recomputed one does not
    rw [stored_eq _ hlen2, zeroedMeta_set_mid B p v hmid.1 hmid.2,
      getD_set_ne_idx B p v 38 (by omega),
      seg_set_inside B p v 34 4 (by omega) (by omega), ← hstored, stored_eq B hlen]
    intro hEq
    have hseq := segVal_inj _ _ _ (by rw [List.length_set]) (by
        intro x hx
        rcases List.mem_or_eq_of_mem_set hx with h | h
        · exact hseg4b x h
        · omega) hseg4b hEq
    have hgl := congrArg (fun l => l.getD (p - 34) 0) hseq
    simp only at hgl
    rw [getD_set_self_idx _ _ _ (by omega), seg_getD B 34 4 (p - 34) (by omega),
      show 34 + (p - 34) = p from by omega] at hgl
    exact hne hgl
  by_cases h38 : p = 38
  · -- the byte-order byte
    subst h38
    have hver := validate_version _ hval
    rw [parsed_version_eq B hlen] at hver
    have hver2 := validate_version _ hval2
    rw [parsed_version_eq _ hlen2, getD_set_self_idx B 38 v (by omega),
      seg_set_outside B 38 v 16 4 (by omega)] at hver2
    have hseg16len : ((B.drop 16).take 4).length = 4 := by
      rw [List.length_take, List.length_drop, hlen]
      omega
    have hseg16b : ∀ x ∈ (B.drop 16).take 4, x < 256 :=
      take_bytes_lt _ (drop_bytes_lt _ hbytes 16) 4
    by_cases hbo0 : B.getD 38 0 = 0
    · -- little endian flipped to big endian: the version field no longer
      -- reads back as 5, so validation would have rejected the parse
      have hv0 : v ≠ 0 := by rw [hbo0] at hne; exact hne
      rw [hbo0] at hver
      unfold segVal at hver hver2
      rw [if_pos rfl] at hver
      rw [if_neg hv0] at hver2
      have := leVal_five_flip _ hseg16len hseg16b hver
      omega
    · by_cases hveq0 : v = 0
      · subst hveq0
        unfold segVal at hver hver2
        rw [if_neg hbo0] at hver
        rw [if_pos rfl] at hver2
        have := leVal_five_flip_rev _ hseg16len hseg16b hver
        omega
      · -- both byte-order flags select big endian: every field reads back
        -- unchanged, but the serialized byte 38 differs, so the crc does
        have hsame : ∀ l : List Nat, segVal v l = segVal (B.getD 38 0) l := by
          intro l
          unfold segVal
          rw [if_neg hveq0, if_neg hbo0]
        rw [stored_eq _ hlen2, getD_set_self_idx B 38 v (by omega),
          seg_set_outside B 38 v 34 4 (by omega), hsame, ← stored_eq B hlen, hstored]
        exact (zeroedMeta_crc_ne B 38 v hlen hbytes hv hne (by omega)).symm
  · -- any other parsed byte: the stored value is untouched and the
    -- recomputed crc changes
    rw [stored_eq _ hlen2, getD_set_ne_idx B p v 38 (by omega),
      seg_set_outside B p v 34 4 (by omega), ← stored_eq B hlen, hstored]
    exact (zeroedMeta_crc_ne B p v hlen hbytes hv hne (by omega)).symm

/-- A concrete valid little-endian archive header: version 5, data crc 1,
archive size 352, data section at 352, no files, zero reserved bytes and a
zero code table; header_crc32 still zero. -/
def hBase : ArchiveHeader :=
  ArchiveHeader.mk 5 0 352 1 0 0 255 0 352 0 (List.replicate 36 0) (List.replicate 256 0)

/-- The checksum compute_header_crc32 assigns to hBase. -/
def headerCrc0 : Nat := crc32 ((writeAt 34 [0, 0, 0, 0] (buildHeaderBytes hBase)).take 352)

/-- The 352-byte meta region of hBase with its checksum filled in: a buffer
that parses and passes validate_crc32. -/
def B0meta : List Nat :=
  buildHeaderBytes (ArchiveHeader.mk 5 0 352 1 headerCrc0 0 255 0 352 0
    (List.replicate 36 0) (List.replicate 256 0))

theorem headerCrc0_lt : headerCrc0 < 2 ^ 32 := by
  unfold headerCrc0 crc32
  exact Nat.xor_lt_two_pow (crcFold_lt _ _ (by decide) (by decide)) (by decide)

theorem segVal_packUInt (bo w v : Nat) (h : v < 256 ^ w) : segVal bo (packUInt bo w v) = v := by
  unfold segVal packUInt
  by_cases hbo : bo = 0
  · rw [if_pos hbo, if_pos hbo, leVal_leBytes, Nat.mod_eq_of_lt h]
  · rw [if_neg hbo, if_neg hbo, List.reverse_reverse, leVal_leBytes, Nat.mod_eq_of_lt h]

theorem build_drop34_take4 (H : ArchiveHeader) :
    ((buildHeaderBytes H).drop 34).take 4 = packUInt H.bytes_order 4 H.header_crc32 := by
  rw [buildHeaderBytes_eq]
  have hassoc :
      hSignature ++ (packUInt H.bytes_order 4 H.version).take 2 ++
        packUInt H.bytes_order 4 H.flags ++ packUInt H.bytes_order 8 H.archive_size ++
        packUInt H.bytes_order 4 H.data_crc32 ++ packUInt H.bytes_order 4 H.header_crc32 ++
        [H.bytes_order &&& 255] ++ [H.align &&& 255] ++
        packUInt H.bytes_order 4 H.file_count ++
        packUInt H.bytes_order 8 H.data_section_offset ++
        packUInt H.bytes_order 8 H.index_section_offset ++ H.reserved ++ H.code_table =
      (hSignature ++ (packUInt H.bytes_order 4 H.version).take 2 ++
        packUInt H.bytes_order 4 H.flags ++ packUInt H.bytes_order 8 H.archive_size ++
        packUInt H.bytes_order 4 H.data_crc32) ++
      (packUInt H.bytes_order 4 H.header_crc32 ++
        ([H.bytes_order &&& 255] ++ ([H.align &&& 255] ++
          (packUInt H.bytes_order 4 H.file_count ++
          (packUInt H.bytes_order 8 H.data_section_offset ++
          (packUInt H.bytes_order 8 H.index_section_offset ++
            (H.reserved ++ H.code_table))))))) := by
    simp [List.append_assoc]
  rw [hassoc, List.drop_left' (by simp [hSignature_length, packUInt_length]),
    List.take_append_of_le_length (le_of_eq (packUInt_length _ _ _).symm),
    List.take_of_length_le (le_of_eq (packUInt_length _ _ _))]

theorem b0_bytes : ∀ x ∈ B0meta, x < 256 := by
  unfold B0meta
  rw [buildHeaderBytes_eq]
  refine append_bytes_lt _ _ ?_ (by decide)
  refine append_bytes_lt _ _ ?_ (by decide)
  refine append_bytes_lt _ _ ?_ (packUInt_lt _ _ _)
  refine append_bytes_lt _ _ ?_ (packUInt_lt _ _ _)
  refine append_bytes_lt _ _ ?_ (packUInt_lt _ _ _)
  refine append_bytes_lt _ _ ?_ (by decide)
  refine append_bytes_lt _ _ ?_ (by decide)
  refine append_bytes_lt _ _ ?_ (packUInt_lt _ _ _)
  refine append_bytes_lt _ _ ?_ (packUInt_lt _ _ _)
  refine append_bytes_lt _ _ ?_ (packUInt_lt _ _ _)
  refine append_bytes_lt _ _ ?_ (packUInt_lt _ _ _)
  decide

theorem parsed_B0_header_crc32 : (parsedHeader B0meta).header_crc32 = headerCrc0 := by
  rw [stored_eq B0meta (by decide), show B0meta.getD 38 0 = 0 by decide]
  have h4 : (B0meta.drop 34).take 4 = packUInt 0 4 headerCrc0 := by
    have h := build_drop34_take4 (ArchiveHeader.mk 5 0 352 1 headerCrc0 0 255 0 352 0
      (List.replicate 36 0) (List.replicate 256 0))
    exact h
  rw [h4]
  apply segVal_packUInt
  have h2 := headerCrc0_lt
  norm_num at h2 ⊢
  exact h2

theorem b0_ok : parseAndCheckHeader B0meta = true := by
  rw [parseAndCheck_eq B0meta (by decide) b0_bytes,
    if_pos (show validateArchiveHeader (parsedHeader B0meta) = true by decide),
    parsed_B0_header_crc32,
    show zeroedMeta B0meta = (writeAt 34 [0, 0, 0, 0] (buildHeaderBytes hBase)).take 352
      by decide]
  exact beq_self_eq_true headerCrc0

theorem zeroedMeta_set_unparsed (B : List Nat) (p v : Nat) (h : p < 16 ∨ p = 39) :
    zeroedMeta (B.set p v) = zeroedMeta B := by
  unfold zeroedMeta
  rw [seg_set_outside B p v 16 18 (by omega), getD_set_ne_idx B p v 38 (by omega),
    List.drop_set, if_pos (by omega)]

/-- C7 (counterexample): B0meta is a 352-byte meta region that parses and
passes validate_crc32, yet overwriting its first signature byte (68, 'D')
with 0, or its align byte 39 (255) with 0, leaves a modified region that
still parses and still passes the checksum - from_bytes never reads those
bytes and to_bytes rewrites them to fixed values before the crc is
recomputed, so the claim fails for them. -/
theorem c7_unparsed_byte_counterexample :
    parseAndCheckHeader B0meta = true ∧
      B0meta.getD 0 0 = 68 ∧ parseAndCheckHeader (B0meta.set 0 0) = true ∧
      B0meta.getD 39 0 = 255 ∧ parseAndCheckHeader (B0meta.set 39 0) = true := by
  have hstep : ∀ p : Nat, p < 16 ∨ p = 39 →
      parseAndCheckHeader (B0meta.set p 0) =
        ((parsedHeader (B0meta.set p 0)).header_crc32 == crc32 (zeroedMeta B0meta)) →
      validateArchiveHeader (parsedHeader (B0meta.set p 0)) = true →
      (parsedHeader (B0meta.set p 0)).header_crc32 = headerCrc0 →
      parseAndCheckHeader (B0meta.set p 0) = true := by
    intro p hp heq hval hcrc
    rw [heq, hcrc,
      show zeroedMeta B0meta = (writeAt 34 [0, 0, 0, 0] (buildHeaderBytes hBase)).take 352
        by decide]
    exact beq_self_eq_true headerCrc0
  refine ⟨b0_ok, by decide, ?_, by decide, ?_⟩
  · refine hstep 0 (by omega) ?_ (by decide) ?_
    · rw [parseAndCheck_eq _ (by rw [List.length_set]; decide)
        (set_bytes _ _ _ (by omega) b0_bytes),
        if_pos (show validateArchiveHeader (parsedHeader (B0meta.set 0 0)) = true by decide),
        zeroedMeta_set_unparsed B0meta 0 0 (by omega)]
    · rw [stored_eq _ (by rw [List.length_set]; decide), getD_set_ne_idx B0meta 0 0 38
        (by omega), seg_set_outside B0meta 0 0 34 4 (by omega), ← stored_eq B0meta (by decide)]
      exact parsed_B0_header_crc32
  · refine hstep 39 (by omega) ?_ (by decide) ?_
    · rw [parseAndCheck_eq _ (by rw [List.length_set]; decide)
        (set_bytes _ _ _ (by omega) b0_bytes),
        if_pos (show validateArchiveHeader (parsedHeader (B0meta.set 39 0)) = true by decide),
        zeroedMeta_set_unparsed B0meta 39 0 (by omega)]
    · rw [stored_eq _ (by rw [List.length_set]; decide), getD_set_ne_idx B0meta 39 0 38
        (by omega), seg_set_outside B0meta 39 0 34 4 (by omega), ← stored_eq B0meta (by decide)]
      exact parsed_B0_header_crc32

/-- C7 witness: the amended theorem applied at the concrete valid header
B0meta with its first version byte (offset 16, value 5) overwritten by 0:
the tampered region is rejected. -/
theorem c7_single_byte_tamper_witness :
    parseAndCheckHeader B0meta = true ∧ parseAndCheckHeader (B0meta.set 16 0) = false :=
  ⟨b0_ok, c7_single_byte_tamper_amended B0meta 16 0 (by decide) b0_bytes b0_ok (by decide)
    (by decide) (by decide) (by decide) (by decide)⟩
